import Mathlib

/-!
Verification of the crossword CSP solver (`generate.py`, class `CrosswordCreator`).

Words are modelled as lists of characters.  Python dictionaries keyed by
variables are modelled as association lists; Python sets of words are modelled
as lists (the real program only ever stores duplicate-free collections).
Character indexing `w[i]` is modelled with `List.get?`; on every input reached
by the solver with a well-formed puzzle model the indices behave exactly as in
Python (out-of-range indexing, which raises in Python, never occurs there).
Recursive procedures (`ac3`'s worklist loop, `backtrack`) take an explicit
fuel argument bounding the number of steps; the callers supply fuel larger
than the termination measure of the original loop, so exhaustion is
unreachable (proved where a claim depends on it).
-/

abbrev Word := List Char

/-- Modelled from the spec: one crossword slot of the Puzzle Model
(`crossword.py` is not part of the sources): starting row/column, direction
(one of two), required word length; two variables are equal iff all four
attributes match. -/
structure Variable where
  row : Nat
  col : Nat
  down : Bool
  length : Nat
deriving DecidableEq

/-- Modelled from the spec: the external Puzzle Model interface consumed by the
solver (`crossword.py` is not part of the sources): the set of variables, the
vocabulary, the overlap lookup `overlap(a, b) -> optional (index_a, index_b)`,
and `neighbors(variable) -> set of variable`. -/
structure Crossword where
  vars : List Variable
  words : List Word
  overlaps : Variable → Variable → Option (Nat × Nat)
  neighbors : Variable → List Variable

/-- Domain Store: mapping from each variable to its current candidate word
set (`self.domains`). -/
abbrev Domains := List (Variable × List Word)

/-- A partial assignment: mapping from variables to chosen words. -/
abbrev Assignment := List (Variable × Word)

/-- Dictionary lookup in an association list. -/
def alookup {α : Type} (l : List (Variable × α)) (v : Variable) : Option α :=
  (l.find? (fun p => decide (p.1 = v))).map Prod.snd

/-- The current domain of a variable (`self.domains[v]`). -/
def domOf (doms : Domains) (v : Variable) : List Word :=
  (alookup doms v).getD []

/-- Replace the domain stored for `x` (mutation of `self.domains[x]`). -/
def domSet : Domains → Variable → List Word → Domains
  | [], _, _ => []
  | p :: rest, x, d => if p.1 = x then (x, d) :: rest else p :: domSet rest x d

/-- Dictionary store `assignment[v] = w`. -/
def aset : Assignment → Variable → Word → Assignment
  | [], v, w => [(v, w)]
  | p :: rest, v, w => if p.1 = v then (v, w) :: rest else p :: aset rest v w

/-- Dictionary delete `del assignment[v]`. -/
def eraseKey (asg : Assignment) (v : Variable) : Assignment :=
  asg.filter (fun p => decide (p.1 ≠ v))

def isAssigned (asg : Assignment) (v : Variable) : Bool :=
  (alookup asg v).isSome

/-- Well-formedness of the Puzzle Model, as promised by the spec's external
interface: `neighbors(v)` consists exactly of the variables sharing a defined
overlap with `v`, and the overlap map is symmetric with swapped indices. -/
def ModelWF (c : Crossword) : Prop :=
  (∀ v ∈ c.vars,
      List.Perm (c.neighbors v)
        (c.vars.filter (fun u => decide (u ≠ v) && (c.overlaps v u).isSome))) ∧
  (∀ u ∈ c.vars, ∀ v ∈ c.vars,
      c.overlaps v u = (c.overlaps u v).map (fun p => (p.2, p.1)))

instance ModelWF.instDecidable (c : Crossword) : Decidable (ModelWF c) := by
  unfold ModelWF
  infer_instance

/-- Domain Store initialization: every variable's domain starts as a copy of
the full vocabulary (`CrosswordCreator.__init__`). -/
def initialDomains (c : Crossword) : Domains :=
  c.vars.map (fun v => (v, c.words))

/-- `enforce_node_consistency`: remove from every domain each word whose
length differs from the variable's required length. -/
def enforce_node_consistency (doms : Domains) : Domains :=
  doms.map (fun p => (p.1, p.2.filter (fun w => decide (w.length = p.1.length))))

/-- `revise(x, y)`: remove from `x`'s domain every word with no possible
corresponding value in `y`'s domain; return the updated store together with
whether a revision was made. -/
def revise (c : Crossword) (doms : Domains) (x y : Variable) : Domains × Bool :=
  match c.overlaps x y with
  | none => (doms, false)
  | some (i, j) =>
      let keep : Word → Bool :=
        fun w => (domOf doms y).any (fun v => decide (w.get? i = v.get? j))
      let words_to_remove := (domOf doms x).filter (fun w => ! keep w)
      (domSet doms x ((domOf doms x).filter keep), ! words_to_remove.isEmpty)

/-- The initial worklist of `ac3`: all arcs `(x, y)` with `y` a neighbor of
`x`.  The Python code appends to a list and pops from its end; the queue is
therefore stored reversed, with the head as the next arc to be popped. -/
def initialArcs (c : Crossword) : List (Variable × Variable) :=
  (c.vars.flatMap (fun x => (c.neighbors x).map (fun y => (x, y)))).reverse

/-- Total number of candidate words across all domains (termination measure
of the ac3 worklist loop). -/
def totalSize (doms : Domains) : Nat :=
  (doms.map (fun p => p.2.length)).sum

/-- The worklist loop of `ac3`.  Pop an arc `(x, y)`; if `revise` removed
something, fail when `x`'s domain emptied, otherwise re-enqueue `(z, x)` for
every neighbor `z` of `x` other than `y`.  The fuel argument bounds the
number of iterations; `ac3` supplies more fuel than the loop's termination
measure, so the fuel-exhaustion branch (which reports failure) is
unreachable there. -/
def ac3go (c : Crossword) : Nat → Domains → List (Variable × Variable) → Domains × Bool
  | _, doms, [] => (doms, true)
  | 0, doms, _ :: _ => (doms, false)
  | fuel + 1, doms, (x, y) :: rest =>
    let r := revise c doms x y
    if r.2 then
      if (domOf r.1 x).length = 0 then (r.1, false)
      else
        ac3go c fuel r.1
          ((((c.neighbors x).filter (fun z => decide (z ≠ y))).map
              (fun z => (z, x))).reverse ++ rest)
    else ac3go c fuel doms rest

/-- `ac3()` started (as in `solve`) from the full arc set. -/
def ac3 (c : Crossword) (doms : Domains) : Domains × Bool :=
  ac3go c (totalSize doms * (c.vars.length + 2) + (initialArcs c).length + 1)
    doms (initialArcs c)

/-- `assignment_complete`: every crossword variable has an entry.  (The
source's first loop, rejecting `None` values, is vacuous here: assignment
values are words by construction.) -/
def assignment_complete (c : Crossword) (asg : Assignment) : Bool :=
  c.vars.all (fun v => isAssigned asg v)

/-- `consistent`: word lengths match, every assigned pair of neighbors agrees
at the overlap indices (a neighbor pair with no recorded overlap is reported
inconsistent), and no word is reused. -/
def consistent (c : Crossword) (asg : Assignment) : Bool :=
  (asg.all fun p =>
    decide (p.2.length = p.1.length) &&
    ((c.neighbors p.1).all fun n =>
      match alookup asg n with
      | none => true
      | some wn =>
        match c.overlaps p.1 n with
        | none => false
        | some (i, j) => decide (p.2.get? i = wn.get? j)))
  && decide ((asg.map Prod.snd).dedup.length = (asg.map Prod.snd).length)

/-- Number of candidate words across unassigned neighbors' domains that are
compatible with assigning `w` to `var` (the count accumulated by
`order_domain_values`).  Assigned neighbors are filtered out before the
overlap is consulted, mirroring the source's `continue` that precedes the
index unpacking.  A missing overlap for an *unassigned* neighbor raises
`TypeError` in Python; the `none => 0` branch below does not model that
abort, so every theorem whose statement can reach it carries a hypothesis
ruling it out, and the concrete runs evaluated below keep their missing
overlaps behind assigned neighbors, which the filter removes first. -/
def compat (c : Crossword) (doms : Domains) (asg : Assignment) (var : Variable)
    (w : Word) : Nat :=
  (((c.neighbors var).filter (fun n => ! isAssigned asg n)).map (fun n =>
      match c.overlaps var n with
      | some (i, j) =>
          (domOf doms n).countP (fun v => decide (w.get? i = v.get? j))
      | none => 0)).sum

/-- The sort order of `order_domain_values`: descending compatibility count
(Python's `sorted(..., key=count, reverse=True)`). -/
def ordRel (c : Crossword) (doms : Domains) (asg : Assignment) (var : Variable)
    (a b : Word) : Prop :=
  compat c doms asg var b ≤ compat c doms asg var a

instance ordRelDecidable (c : Crossword) (doms : Domains) (asg : Assignment)
    (var : Variable) : DecidableRel (ordRel c doms asg var) := fun _ _ => by
  unfold ordRel
  infer_instance

/-- `order_domain_values`: the domain of `var` sorted by descending
compatibility count, i.e. the least-constraining value first. -/
def order_domain_values (c : Crossword) (doms : Domains) (var : Variable)
    (asg : Assignment) : List Word :=
  List.insertionSort (ordRel c doms asg var) (domOf doms var)

/-- The sort order of `select_unassigned_variable`: Python's ascending sort
by the key tuple `(len(domains[x]), -len(neighbors(x)))`. -/
def selRel (c : Crossword) (doms : Domains) (a b : Variable) : Prop :=
  (domOf doms a).length < (domOf doms b).length ∨
  ((domOf doms a).length = (domOf doms b).length ∧
    (c.neighbors b).length ≤ (c.neighbors a).length)

instance selRelDecidable (c : Crossword) (doms : Domains) :
    DecidableRel (selRel c doms) := fun _ _ => by
  unfold selRel
  infer_instance

/-- `select_unassigned_variable`: sort the unassigned variables by
(domain size, negated degree) and take the first (minimum remaining values,
ties broken by highest degree).  Returns `none` only when no variable is
unassigned (where Python's `result[0]` would raise). -/
def select_unassigned_variable (c : Crossword) (doms : Domains)
    (asg : Assignment) : Option Variable :=
  (List.insertionSort (selRel c doms)
      ((doms.map Prod.fst).filter (fun v => ! isAssigned asg v))).head?

/-- Python truthiness of `result` in `backtrack`: a non-`None`, non-empty
dictionary. -/
def truthy (r : Option Assignment) : Bool :=
  match r with
  | none => false
  | some m => ! m.isEmpty

/-- The candidate loop of `backtrack`: try each value in order; tentatively
place it, keep it when the recursive search (the parameter `bt`, instantiated
with the continuation of `btRun`) succeeds, otherwise delete the tentative
entry from the current dictionary state and try the next value.  The result
pairs the Python return value with the dictionary state at return. -/
def btVals (c : Crossword) (bt : Assignment → Option Assignment × Assignment)
    (var : Variable) : Assignment → List Word → Option Assignment × Assignment
  | asg, [] => (none, asg)
  | asg, val :: rest =>
    let asg1 := aset asg var val
    if consistent c asg1 then
      let r := bt asg1
      if truthy r.1 then r
      else btVals c bt var (eraseKey r.2 var) rest
    else btVals c bt var (eraseKey asg1 var) rest

/-- `backtrack`, with fuel bounding the recursion depth.  One unit of fuel is
spent per recursion level; `backtrack` below supplies more fuel than there
are variables, so exhaustion is unreachable. -/
def btRun (c : Crossword) (doms : Domains) : Nat → Assignment → Option Assignment × Assignment
  | 0, asg => (none, asg)
  | fuel + 1, asg =>
    if assignment_complete c asg then (some asg, asg)
    else
      match select_unassigned_variable c doms asg with
      | none => (none, asg)
      | some var => btVals c (btRun c doms fuel) var asg (order_domain_values c doms var asg)

/-- `backtrack(assignment)`: recursion depth is bounded by the number of
unassigned variables, which is at most the number of domain entries. -/
def backtrack (c : Crossword) (doms : Domains) (asg : Assignment) :
    Option Assignment × Assignment :=
  btRun c doms (doms.length + 1) asg

/-- `solve()`: node consistency, then `ac3` (whose result is discarded, as in
the source), then backtracking search from the empty assignment. -/
def solve (c : Crossword) : Option Assignment :=
  let d1 := enforce_node_consistency (initialDomains c)
  let p := ac3 c d1
  (backtrack c p.1 []).1

/-- `solve()` instrumented with a flag recording whether the backtracking
search was invoked.  The source calls `self.backtrack(dict())`
unconditionally (the value of `self.ac3()` is discarded), so the flag is true
on every control path. -/
def solveTrace (c : Crossword) : Option Assignment × Bool :=
  let d1 := enforce_node_consistency (initialDomains c)
  let p := ac3 c d1
  ((backtrack c p.1 []).1, true)

/-- Modelled from the spec: the Solver facade as §4.4 describes it — "if arc
consistency reports failure, return 'no solution' immediately without
invoking search" — with the same invocation flag as `solveTrace`. -/
def solveSpecTrace (c : Crossword) : Option Assignment × Bool :=
  let d1 := enforce_node_consistency (initialDomains c)
  let p := ac3 c d1
  if p.2 then ((backtrack c p.1 []).1, true) else (none, false)

section Sanity

/-- A one-slot puzzle: a single horizontal slot of length 1. -/
def v1 : Variable := ⟨0, 0, false, 1⟩

def cOne : Crossword :=
  { vars := [v1]
    words := [['a']]
    overlaps := fun _ _ => none
    neighbors := fun _ => [] }

/-- Smoke test: the one-slot puzzle is solved with its single word. -/
theorem solve_cOne : solve cOne = some [(v1, ['a'])] := by decide

end Sanity

/-! ### Association-list lemmas -/

theorem alookup_cons {α : Type} (p : Variable × α) (l : List (Variable × α)) (v : Variable) :
    alookup (p :: l) v = if p.1 = v then some p.2 else alookup l v := by
  by_cases h : p.1 = v <;> simp [alookup, List.find?_cons, h]

theorem mem_of_alookup_eq_some {α : Type} {l : List (Variable × α)} {v : Variable} {x : α}
    (h : alookup l v = some x) : (v, x) ∈ l := by
  induction l with
  | nil => simp [alookup] at h
  | cons p rest ih =>
    rw [alookup_cons] at h
    by_cases hp : p.1 = v
    · obtain ⟨a, b⟩ := p
      simp at hp
      simp [hp] at h
      simp [hp, h]
    · simp [hp] at h
      exact List.mem_cons_of_mem _ (ih h)

theorem alookup_eq_none {α : Type} {l : List (Variable × α)} {v : Variable} :
    alookup l v = none ↔ ∀ x : α, (v, x) ∉ l := by
  induction l with
  | nil => simp [alookup]
  | cons p rest ih =>
    rw [alookup_cons]
    by_cases hp : p.1 = v
    · subst hp
      constructor
      · intro h; simp at h
      · intro h
        exact absurd (List.mem_cons_self _ _) (by exact h p.2)
    · simp only [hp, if_false, ih]
      constructor
      · intro h x hx
        rcases List.mem_cons.mp hx with h1 | h1
        · exact hp (by rw [← h1])
        · exact h x h1
      · intro h x hx
        exact h x (List.mem_cons_of_mem _ hx)

theorem alookup_eq_some_of_mem {α : Type} {l : List (Variable × α)} {v : Variable} {x : α}
    (hnd : (l.map Prod.fst).Nodup) (h : (v, x) ∈ l) : alookup l v = some x := by
  induction l with
  | nil => simp at h
  | cons p rest ih =>
    rw [alookup_cons]
    rcases List.mem_cons.mp h with h1 | h1
    · simp [← h1]
    · rw [List.map_cons] at hnd
      have hnd' := List.nodup_cons.mp hnd
      have hp : p.1 ≠ v := by
        intro he
        exact hnd'.1 (he ▸ List.mem_map.mpr ⟨(v, x), h1, rfl⟩)
      simp only [hp, if_false]
      exact ih hnd'.2 h1

theorem keys_domSet (d : Domains) (x : Variable) (ws : List Word) :
    (domSet d x ws).map Prod.fst = d.map Prod.fst := by
  induction d with
  | nil => rfl
  | cons p rest ih =>
    by_cases h : p.1 = x <;> simp [domSet, h, ih]

theorem alookup_domSet_ne (d : Domains) {x v : Variable} (ws : List Word) (h : v ≠ x) :
    alookup (domSet d x ws) v = alookup d v := by
  induction d with
  | nil => rfl
  | cons p rest ih =>
    by_cases hp : p.1 = x
    · simp [domSet, hp, alookup_cons, Ne.symm h]
    · simp [domSet, hp, alookup_cons, ih]

theorem alookup_domSet_self {d : Domains} {x : Variable} {d0 : List Word}
    (h : alookup d x = some d0) (ws : List Word) :
    alookup (domSet d x ws) x = some ws := by
  induction d with
  | nil => simp [alookup] at h
  | cons p rest ih =>
    rw [alookup_cons] at h
    by_cases hp : p.1 = x
    · simp [domSet, hp, alookup_cons]
    · simp only [hp, if_false] at h
      simp [domSet, hp, alookup_cons, ih h]

theorem domSet_of_alookup_none {d : Domains} {x : Variable}
    (h : alookup d x = none) (ws : List Word) : domSet d x ws = d := by
  induction d with
  | nil => rfl
  | cons p rest ih =>
    rw [alookup_cons] at h
    by_cases hp : p.1 = x
    · simp [hp] at h
    · simp only [hp, if_false] at h
      simp [domSet, hp, ih h]

theorem totalSize_domSet_lt {d : Domains} {x : Variable} {d0 ws : List Word}
    (h : alookup d x = some d0) (hlt : ws.length < d0.length) :
    totalSize (domSet d x ws) < totalSize d := by
  induction d with
  | nil => simp [alookup] at h
  | cons p rest ih =>
    rw [alookup_cons] at h
    by_cases hp : p.1 = x
    · simp only [hp, if_pos, Option.some.injEq] at h
      subst h
      simp [domSet, hp, totalSize]
      omega
    · simp only [hp, if_false] at h
      have := ih h
      simp [domSet, hp, totalSize] at this ⊢
      omega

theorem alookup_aset_self (asg : Assignment) (v : Variable) (w : Word) :
    alookup (aset asg v w) v = some w := by
  induction asg with
  | nil => simp [aset, alookup_cons]
  | cons p rest ih =>
    by_cases hp : p.1 = v
    · simp [aset, hp, alookup_cons]
    · simp [aset, hp, alookup_cons, ih]

theorem alookup_aset_ne (asg : Assignment) {u v : Variable} (w : Word) (h : u ≠ v) :
    alookup (aset asg v w) u = alookup asg u := by
  induction asg with
  | nil => simp [aset, alookup_cons, Ne.symm h]
  | cons p rest ih =>
    by_cases hp : p.1 = v
    · simp [aset, hp, alookup_cons, Ne.symm h]
    · simp [aset, hp, alookup_cons, ih]

theorem aset_ne_nil (asg : Assignment) (v : Variable) (w : Word) :
    aset asg v w ≠ [] := by
  cases asg with
  | nil => simp [aset]
  | cons p rest =>
    by_cases hp : p.1 = v <;> simp [aset, hp]

theorem eraseKey_cons_ne {p : Variable × Word} {rest : Assignment} {v : Variable}
    (hp : p.1 ≠ v) : eraseKey (p :: rest) v = p :: eraseKey rest v := by
  simp [eraseKey, List.filter_cons, hp]

theorem eraseKey_of_alookup_none {asg : Assignment} {v : Variable}
    (h : alookup asg v = none) : eraseKey asg v = asg := by
  induction asg with
  | nil => rfl
  | cons p rest ih =>
    rw [alookup_cons] at h
    by_cases hp : p.1 = v
    · simp [hp] at h
    · simp only [hp, if_false] at h
      rw [eraseKey_cons_ne hp, ih h]

theorem eraseKey_aset {asg : Assignment} {v : Variable} (w : Word)
    (h : alookup asg v = none) : eraseKey (aset asg v w) v = asg := by
  induction asg with
  | nil => simp [aset, eraseKey]
  | cons p rest ih =>
    rw [alookup_cons] at h
    by_cases hp : p.1 = v
    · simp [hp] at h
    · simp only [hp, if_false] at h
      have hstep : aset (p :: rest) v w = p :: aset rest v w := by simp [aset, hp]
      rw [hstep, eraseKey_cons_ne hp, ih h]

/-! ### Node consistency (claim C4) -/

theorem alookup_enforce (d : Domains) (v : Variable) :
    alookup (enforce_node_consistency d) v =
      (alookup d v).map (fun ws => ws.filter (fun w => decide (w.length = v.length))) := by
  induction d with
  | nil => rfl
  | cons p rest ih =>
    simp only [enforce_node_consistency, List.map_cons] at ih ⊢
    rw [alookup_cons, alookup_cons]
    by_cases h : p.1 = v
    · simp [h]
    · simp [h, ih]

theorem domOf_enforce (d : Domains) (v : Variable) :
    domOf (enforce_node_consistency d) v =
      (domOf d v).filter (fun w => decide (w.length = v.length)) := by
  unfold domOf
  rw [alookup_enforce]
  cases alookup d v <;> simp

/-- C4: after `enforce_node_consistency`, every word remaining in a
variable's domain has exactly the variable's required length, and no word of
matching length is removed by the pass. -/
theorem claim_C4_node_consistency (doms : Domains) (v : Variable) :
    (∀ w ∈ domOf (enforce_node_consistency doms) v, w.length = v.length) ∧
    (∀ w ∈ domOf doms v, w.length = v.length →
      w ∈ domOf (enforce_node_consistency doms) v) := by
  constructor
  · intro w hw
    rw [domOf_enforce] at hw
    exact of_decide_eq_true (List.mem_filter.mp hw).2
  · intro w hw hlen
    rw [domOf_enforce]
    exact List.mem_filter.mpr ⟨hw, decide_eq_true hlen⟩

/-- Witness for C4 at a concrete store: the one-slot variable keeps the
length-1 word, which indeed has its required length. -/
theorem claim_C4_witness :
    (['a'] : Word).length = v1.length ∧
    ['a'] ∈ domOf (enforce_node_consistency [(v1, [['a'], ['a', 'b']])]) v1 :=
  ⟨(claim_C4_node_consistency [(v1, [['a'], ['a', 'b']])] v1).1 ['a'] (by decide),
   (claim_C4_node_consistency [(v1, [['a'], ['a', 'b']])] v1).2 ['a'] (by decide) (by decide)⟩

/-! ### Revise (claim C6) -/

/-- C6: `revise(X, Y)` postcondition: with no recorded overlap it changes no
domain and reports no change; with overlap `(i, j)` it removes from X's
domain exactly the words with no support in Y's current domain, leaves Y's
domain unchanged, and reports a change iff at least one word was removed. -/
theorem claim_C6_revise_postcondition (c : Crossword) (doms : Domains) (x y : Variable)
    (hxy : x ≠ y) :
    (c.overlaps x y = none → revise c doms x y = (doms, false)) ∧
    (∀ i j, c.overlaps x y = some (i, j) →
      (∀ w ∈ domOf doms x,
        (w ∈ domOf (revise c doms x y).1 x ↔ ∃ v ∈ domOf doms y, w.get? i = v.get? j)) ∧
      (∀ w ∈ domOf (revise c doms x y).1 x, w ∈ domOf doms x) ∧
      domOf (revise c doms x y).1 y = domOf doms y ∧
      ((revise c doms x y).2 = true ↔
        ∃ w ∈ domOf doms x, ∀ v ∈ domOf doms y, ¬ (w.get? i = v.get? j))) := by
  constructor
  · intro h
    simp [revise, h]
  · intro i j h
    simp only [revise, h]
    have hflag : ∀ dx : List Word,
        (!(dx.filter (fun w =>
            !(domOf doms y).any (fun v => decide (w.get? i = v.get? j)))).isEmpty) = true ↔
          ∃ w ∈ dx, ∀ v ∈ domOf doms y, ¬ (w.get? i = v.get? j) := by
      intro dx
      rw [Bool.not_eq_true', ← Bool.not_eq_true]
      rw [List.isEmpty_iff]
      constructor
      · intro hne
        rcases List.exists_mem_of_ne_nil _ hne with ⟨w, hw⟩
        rcases List.mem_filter.mp hw with ⟨hw1, hw2⟩
        refine ⟨w, hw1, ?_⟩
        intro v hv heq
        have : (domOf doms y).any (fun v => decide (w.get? i = v.get? j)) = true :=
          List.any_eq_true.mpr ⟨v, hv, decide_eq_true heq⟩
        rw [this] at hw2
        simp at hw2
      · rintro ⟨w, hw, hnosup⟩ hnil
        have : w ∈ (dx.filter (fun w =>
            !(domOf doms y).any (fun v => decide (w.get? i = v.get? j)))) := by
          refine List.mem_filter.mpr ⟨hw, ?_⟩
          rw [Bool.not_eq_true', ← Bool.not_eq_true]
          intro hany
          rcases List.any_eq_true.mp hany with ⟨v, hv, heq⟩
          exact hnosup v hv (of_decide_eq_true heq)
        rw [hnil] at this
        simp at this
    by_cases halo : alookup doms x = none
    · have hdx : domOf doms x = [] := by simp [domOf, halo]
      rw [domSet_of_alookup_none halo]
      refine ⟨?_, ?_, rfl, ?_⟩
      · intro w hw
        rw [hdx] at hw
        simp at hw
      · intro w hw
        exact hw
      · exact hflag _
    · rcases Option.ne_none_iff_exists'.mp halo with ⟨d0, hd0⟩
      have hdx : domOf doms x = d0 := by simp [domOf, hd0]
      have hnew : domOf (domSet doms x ((domOf doms x).filter
          (fun w => (domOf doms y).any (fun v => decide (w.get? i = v.get? j))))) x =
          (domOf doms x).filter (fun w => (domOf doms y).any (fun v => decide (w.get? i = v.get? j))) := by
        simp [domOf, alookup_domSet_self hd0]
      refine ⟨?_, ?_, ?_, ?_⟩
      · intro w hw
        rw [hnew]
        constructor
        · intro hmem
          rcases List.mem_filter.mp hmem with ⟨_, hany⟩
          rcases List.any_eq_true.mp hany with ⟨v, hv, heq⟩
          exact ⟨v, hv, of_decide_eq_true heq⟩
        · rintro ⟨v, hv, heq⟩
          exact List.mem_filter.mpr ⟨hw, List.any_eq_true.mpr ⟨v, hv, decide_eq_true heq⟩⟩
      · intro w hw
        rw [hnew] at hw
        exact (List.mem_filter.mp hw).1
      · unfold domOf
        rw [alookup_domSet_ne _ _ (Ne.symm hxy)]
      · exact hflag _

/-- A crossing pair of length-2 slots overlapping at their first characters. -/
def vA : Variable := ⟨0, 0, false, 2⟩

def vB : Variable := ⟨0, 0, true, 2⟩

def cTwo : Crossword :=
  { vars := [vA, vB]
    words := [['a', 'b'], ['a', 'c'], ['d', 'e']]
    overlaps := fun u v =>
      if u = vA ∧ v = vB then some (0, 0)
      else if u = vB ∧ v = vA then some (0, 0)
      else none
    neighbors := fun u => if u = vA then [vB] else if u = vB then [vA] else [] }

/-- Witness for C6 at a concrete input: revising `vA` against `vB` keeps the
word "de" exactly because "de" has a support in `vB`'s domain. -/
theorem claim_C6_witness :
    (['d', 'e'] ∈ domOf (revise cTwo (initialDomains cTwo) vA vB).1 vA ↔
      ∃ v ∈ domOf (initialDomains cTwo) vB, (['d', 'e'] : Word).get? 0 = v.get? 0) ∧
    domOf (revise cTwo (initialDomains cTwo) vA vB).1 vB = domOf (initialDomains cTwo) vB :=
  ⟨(((claim_C6_revise_postcondition cTwo (initialDomains cTwo) vA vB (by decide)).2
      0 0 (by decide)).1 ['d', 'e'] (by decide)),
   ((claim_C6_revise_postcondition cTwo (initialDomains cTwo) vA vB (by decide)).2
      0 0 (by decide)).2.2.1⟩

/-! ### Backtracking state restoration (claim C10) -/

/-- Entry-preserving extension of assignments. -/
def Submap (a b : Assignment) : Prop :=
  ∀ v w, alookup a v = some w → alookup b v = some w

theorem isAssigned_false_iff {asg : Assignment} {v : Variable} :
    isAssigned asg v = false ↔ alookup asg v = none := by
  unfold isAssigned
  cases alookup asg v <;> simp

theorem submap_aset {asg : Assignment} {var : Variable} (val : Word)
    (h : alookup asg var = none) : Submap asg (aset asg var val) := by
  intro v w hv
  have hne : v ≠ var := by
    intro he
    rw [he, h] at hv
    cases hv
  rw [alookup_aset_ne _ _ hne]
  exact hv

theorem select_some_unassigned {c : Crossword} {doms : Domains} {asg : Assignment}
    {var : Variable} (h : select_unassigned_variable c doms asg = some var) :
    var ∈ doms.map Prod.fst ∧ isAssigned asg var = false := by
  unfold select_unassigned_variable at h
  have hmem : var ∈ List.insertionSort (selRel c doms)
      ((doms.map Prod.fst).filter (fun v => ! isAssigned asg v)) := by
    exact List.mem_of_mem_head? (by rw [h]; exact rfl)
  rw [List.mem_insertionSort] at hmem
  rcases List.mem_filter.mp hmem with ⟨h1, h2⟩
  exact ⟨h1, by simpa using h2⟩

/-- The candidate loop preserves the dictionary on failure and returns the
final dictionary on success, provided the recursive search does. -/
theorem btVals_state (c : Crossword) (bt : Assignment → Option Assignment × Assignment)
    (var : Variable)
    (hbt : ∀ asg', ((bt asg').1 = none ∧ (bt asg').2 = asg') ∨
           ∃ m, (bt asg').1 = some m ∧ (bt asg').2 = m ∧ Submap asg' m) :
    ∀ (vals : List Word) (asg : Assignment), alookup asg var = none →
      ((btVals c bt var asg vals).1 = none ∧ (btVals c bt var asg vals).2 = asg) ∨
      ∃ m, (btVals c bt var asg vals).1 = some m ∧ (btVals c bt var asg vals).2 = m ∧
        Submap asg m := by
  intro vals
  induction vals with
  | nil =>
    intro asg _
    left
    exact ⟨rfl, rfl⟩
  | cons val rest ih =>
    intro asg hvar
    simp only [btVals]
    by_cases hcons : consistent c (aset asg var val) = true
    · rw [if_pos hcons]
      rcases hbt (aset asg var val) with ⟨h1, h2⟩ | ⟨m, h1, h2, h3⟩
      · rw [h1]
        simp only [truthy, Bool.false_eq_true, if_false]
        rw [h2, eraseKey_aset val hvar]
        exact ih asg hvar
      · have hm : alookup m var = some val := h3 var val (alookup_aset_self asg var val)
        have hne : m.isEmpty = false := by
          cases m with
          | nil => simp [alookup] at hm
          | cons q t => rfl
        rw [h1]
        simp only [truthy, hne, Bool.not_false, if_true]
        right
        refine ⟨m, h1, h2, ?_⟩
        intro v w hv
        exact h3 v w (submap_aset val hvar v w hv)
    · rw [if_neg hcons]
      rw [eraseKey_aset val hvar]
      exact ih asg hvar

/-- `backtrack` either fails with the entry dictionary intact, or succeeds
returning the final dictionary, an extension of the entry one. -/
theorem btRun_state (c : Crossword) (doms : Domains) :
    ∀ (fuel : Nat) (asg : Assignment),
      ((btRun c doms fuel asg).1 = none ∧ (btRun c doms fuel asg).2 = asg) ∨
      ∃ m, (btRun c doms fuel asg).1 = some m ∧ (btRun c doms fuel asg).2 = m ∧
        Submap asg m := by
  intro fuel
  induction fuel with
  | zero =>
    intro asg
    left
    exact ⟨rfl, rfl⟩
  | succ fuel ih =>
    intro asg
    simp only [btRun]
    by_cases hc : assignment_complete c asg = true
    · rw [if_pos hc]
      right
      exact ⟨asg, rfl, rfl, fun v w h => h⟩
    · rw [if_neg hc]
      cases hsel : select_unassigned_variable c doms asg with
      | none =>
        left
        exact ⟨rfl, rfl⟩
      | some var =>
        have hun := (select_some_unassigned hsel).2
        exact btVals_state c (btRun c doms fuel) var ih _ asg
          (isAssigned_false_iff.mp hun)

/-- C10: if `backtrack(assignment)` returns failure (`None`), the assignment
dictionary at return holds exactly the entries it held at entry — every
tentative entry added during the call has been removed. -/
theorem claim_C10_backtrack_failure_atomicity (c : Crossword) (doms : Domains)
    (asg : Assignment) (h : (backtrack c doms asg).1 = none) :
    (backtrack c doms asg).2 = asg := by
  unfold backtrack at h ⊢
  rcases btRun_state c doms (doms.length + 1) asg with ⟨_, h2⟩ | ⟨m, h1, _, _⟩
  · exact h2
  · rw [h1] at h
    cases h

/-- Witness for C10: on a concrete unsolvable store the search fails and the
entry assignment (here empty) is returned unchanged. -/
theorem claim_C10_witness : (backtrack cOne [(v1, [])] []).2 = [] :=
  claim_C10_backtrack_failure_atomicity cOne [(v1, [])] [] (by decide)

/-! ### Variable selection (claim C8) -/

instance selRel_total (c : Crossword) (doms : Domains) : IsTotal Variable (selRel c doms) :=
  ⟨by
    intro a b
    unfold selRel
    rcases Nat.lt_trichotomy (domOf doms a).length (domOf doms b).length with h | h | h
    · left; left; exact h
    · rcases Nat.le_total (c.neighbors b).length (c.neighbors a).length with h2 | h2
      · left; right; exact ⟨h, h2⟩
      · right; right; exact ⟨h.symm, h2⟩
    · right; left; exact h⟩

instance selRel_trans (c : Crossword) (doms : Domains) : IsTrans Variable (selRel c doms) :=
  ⟨by
    intro a b d hab hbd
    unfold selRel at hab hbd ⊢
    rcases hab with h1 | ⟨h1, h1d⟩ <;> rcases hbd with h2 | ⟨h2, h2d⟩
    · left; omega
    · left; omega
    · left; omega
    · right; exact ⟨by omega, le_trans h2d h1d⟩⟩

/-- The head of an insertion sort under a total transitive relation is
related to every member of the original list. -/
theorem head_insertionSort_min {α : Type} (r : α → α → Prop) [DecidableRel r]
    [IsTotal α r] [IsTrans α r] (l : List α) (h : α)
    (hh : (List.insertionSort r l).head? = some h) :
    ∀ a ∈ l, r h a := by
  have hs := List.sorted_insertionSort r l
  have hmem : ∀ a ∈ l, a ∈ List.insertionSort r l :=
    fun a ha => (List.mem_insertionSort r).mpr ha
  cases hsort : List.insertionSort r l with
  | nil =>
    rw [hsort] at hh
    cases hh
  | cons b t =>
    rw [hsort] at hh
    simp only [List.head?_cons, Option.some.injEq] at hh
    cases hh
    rw [hsort] at hs
    intro a ha
    have hal : a ∈ h :: t := by
      rw [← hsort]
      exact hmem a ha
    rcases List.mem_cons.mp hal with h1 | h1
    · rw [h1]
      rcases total_of r h h with h2 | h2 <;> exact h2
    · exact (List.pairwise_cons.mp hs).1 a h1

/-- C8: with at least one unassigned variable, `select_unassigned_variable`
returns an unassigned variable of minimal domain size; among those of minimal
domain size it returns one of maximal degree. -/
theorem claim_C8_mrv_degree_selection (c : Crossword) (doms : Domains) (asg : Assignment)
    (h : ∃ v ∈ doms.map Prod.fst, isAssigned asg v = false) :
    ∃ var, select_unassigned_variable c doms asg = some var ∧
      var ∈ doms.map Prod.fst ∧ isAssigned asg var = false ∧
      (∀ u ∈ doms.map Prod.fst, isAssigned asg u = false →
        (domOf doms var).length ≤ (domOf doms u).length) ∧
      (∀ u ∈ doms.map Prod.fst, isAssigned asg u = false →
        (domOf doms u).length = (domOf doms var).length →
        (c.neighbors u).length ≤ (c.neighbors var).length) := by
  rcases h with ⟨v0, hv0, hv0u⟩
  have hne : ((doms.map Prod.fst).filter (fun v => ! isAssigned asg v)) ≠ [] := by
    intro hnil
    have : v0 ∈ (doms.map Prod.fst).filter (fun v => ! isAssigned asg v) :=
      List.mem_filter.mpr ⟨hv0, by simp [hv0u]⟩
    rw [hnil] at this
    simp at this
  have hslen : (List.insertionSort (selRel c doms)
      ((doms.map Prod.fst).filter (fun v => ! isAssigned asg v))) ≠ [] := by
    intro hnil
    have := List.length_insertionSort (selRel c doms)
      ((doms.map Prod.fst).filter (fun v => ! isAssigned asg v))
    rw [hnil] at this
    exact hne (List.eq_nil_of_length_eq_zero this.symm)
  rcases List.exists_mem_of_ne_nil _ hslen with ⟨var0, _⟩
  cases hh : (List.insertionSort (selRel c doms)
      ((doms.map Prod.fst).filter (fun v => ! isAssigned asg v))).head? with
  | none =>
    rw [List.head?_eq_none_iff] at hh
    exact absurd hh hslen
  | some var =>
    have hsel : select_unassigned_variable c doms asg = some var := hh
    have hmin := head_insertionSort_min (selRel c doms) _ var hh
    have hprops := select_some_unassigned hsel
    refine ⟨var, hsel, hprops.1, hprops.2, ?_, ?_⟩
    · intro u hu hun
      have := hmin u (List.mem_filter.mpr ⟨hu, by simp [hun]⟩)
      unfold selRel at this
      rcases this with h1 | ⟨h1, _⟩
      · exact le_of_lt h1
      · exact le_of_eq h1
    · intro u hu hun heq
      have := hmin u (List.mem_filter.mpr ⟨hu, by simp [hun]⟩)
      unfold selRel at this
      rcases this with h1 | ⟨_, h2⟩
      · omega
      · exact h2

/-- Witness for C8: on a concrete store with two unassigned variables,
selection picks the one with the smaller pruned domain. -/
theorem claim_C8_witness :
    ∃ var, select_unassigned_variable cTwo [(vA, [['a', 'b']]), (vB, [['a', 'b'], ['a', 'c']])] []
        = some var ∧
      var ∈ [(vA, [['a', 'b']]), (vB, [['a', 'b'], ['a', 'c']])].map Prod.fst ∧
      isAssigned [] var = false ∧
      (∀ u ∈ [(vA, [['a', 'b']]), (vB, [['a', 'b'], ['a', 'c']])].map Prod.fst,
        isAssigned [] u = false →
        (domOf [(vA, [['a', 'b']]), (vB, [['a', 'b'], ['a', 'c']])] var).length ≤
          (domOf [(vA, [['a', 'b']]), (vB, [['a', 'b'], ['a', 'c']])] u).length) ∧
      (∀ u ∈ [(vA, [['a', 'b']]), (vB, [['a', 'b'], ['a', 'c']])].map Prod.fst,
        isAssigned [] u = false →
        (domOf [(vA, [['a', 'b']]), (vB, [['a', 'b'], ['a', 'c']])] u).length =
          (domOf [(vA, [['a', 'b']]), (vB, [['a', 'b'], ['a', 'c']])] var).length →
        (cTwo.neighbors u).length ≤ (cTwo.neighbors var).length) :=
  claim_C8_mrv_degree_selection cTwo [(vA, [['a', 'b']]), (vB, [['a', 'b'], ['a', 'c']])] []
    ⟨vA, by decide, by decide⟩

/-! ### Value ordering (claim C7) -/

instance ordRel_total (c : Crossword) (doms : Domains) (asg : Assignment)
    (var : Variable) : IsTotal Word (ordRel c doms asg var) :=
  ⟨fun _ _ => Nat.le_total _ _⟩

instance ordRel_trans (c : Crossword) (doms : Domains) (asg : Assignment)
    (var : Variable) : IsTrans Word (ordRel c doms asg var) :=
  ⟨fun _ _ _ hab hbd => le_trans hbd hab⟩

/-- The quantity named by the claim: how many candidate words across `var`'s
unassigned neighbors' domains the word `w` rules out (a neighbor's candidate
is ruled out when its character at the matching overlap index differs from
`w`'s character at its overlap index). -/
def ruledOut (c : Crossword) (doms : Domains) (asg : Assignment) (var : Variable)
    (w : Word) : Nat :=
  (((c.neighbors var).filter (fun n => ! isAssigned asg n)).map (fun n =>
      match c.overlaps var n with
      | some (i, j) =>
          (domOf doms n).countP (fun v => ! decide (w.get? i = v.get? j))
      | none => 0)).sum

theorem countP_partition {α : Type} (l : List α) (p : α → Bool) :
    l.countP p + l.countP (fun a => ! p a) = l.length := by
  induction l with
  | nil => rfl
  | cons a t ih =>
    by_cases h : p a = true <;> simp [List.countP_cons, h] <;> omega

theorem compat_sum_aux (c : Crossword) (doms : Domains) (var : Variable) (w : Word)
    (L : List Variable) (hov : ∀ n ∈ L, (c.overlaps var n).isSome = true) :
    (L.map (fun n =>
        match c.overlaps var n with
        | some (i, j) =>
            (domOf doms n).countP (fun v => decide (w.get? i = v.get? j))
        | none => 0)).sum
      + (L.map (fun n =>
        match c.overlaps var n with
        | some (i, j) =>
            (domOf doms n).countP (fun v => ! decide (w.get? i = v.get? j))
        | none => 0)).sum
      = (L.map (fun n => (domOf doms n).length)).sum := by
  induction L with
  | nil => rfl
  | cons n t ih =>
    have hn := hov n (List.mem_cons_self n t)
    rcases Option.isSome_iff_exists.mp hn with ⟨q, hq⟩
    obtain ⟨i, j⟩ := q
    have hpart := countP_partition (domOf doms n) (fun v => decide (w.get? i = v.get? j))
    have iht := ih (fun m hm => hov m (List.mem_cons_of_mem n hm))
    simp only [List.map_cons, List.sum_cons, hq]
    omega

theorem compat_add_ruledOut (c : Crossword) (doms : Domains) (asg : Assignment)
    (var : Variable) (w : Word)
    (hov : ∀ n ∈ (c.neighbors var).filter (fun n => ! isAssigned asg n),
      (c.overlaps var n).isSome = true) :
    compat c doms asg var w + ruledOut c doms asg var w =
      (((c.neighbors var).filter (fun n => ! isAssigned asg n)).map
        (fun n => (domOf doms n).length)).sum := by
  unfold compat ruledOut
  exact compat_sum_aux c doms var w _ hov

/-- C7: `order_domain_values` returns the words of `var`'s domain sorted
ascending by the number of candidate words they rule out across `var`'s
unassigned neighbors' domains (assigned neighbors are not counted).  The
hypothesis records the Puzzle Model contract that every neighbor consulted
has a recorded overlap (Python would raise otherwise). -/
theorem claim_C7_lcv_ordering (c : Crossword) (doms : Domains) (var : Variable)
    (asg : Assignment)
    (hov : ∀ n ∈ c.neighbors var, isAssigned asg n = false →
      (c.overlaps var n).isSome = true) :
    List.Perm (order_domain_values c doms var asg) (domOf doms var) ∧
    List.Pairwise (fun a b => ruledOut c doms asg var a ≤ ruledOut c doms asg var b)
      (order_domain_values c doms var asg) := by
  constructor
  · exact List.perm_insertionSort _ _
  · have hs := List.sorted_insertionSort (ordRel c doms asg var) (domOf doms var)
    have hfov : ∀ n ∈ (c.neighbors var).filter (fun n => ! isAssigned asg n),
        (c.overlaps var n).isSome = true := by
      intro n hn
      rcases List.mem_filter.mp hn with ⟨h1, h2⟩
      exact hov n h1 (by simpa using h2)
    refine hs.imp ?_
    intro a b hab
    have ha := compat_add_ruledOut c doms asg var a hfov
    have hb := compat_add_ruledOut c doms asg var b hfov
    unfold ordRel at hab
    omega

/-- Witness for C7 at a concrete puzzle: the ordering of `vA`'s full domain
against the crossing slot `vB` is a permutation of the domain, sorted by
ascending ruled-out count. -/
theorem claim_C7_witness :
    List.Perm (order_domain_values cTwo (initialDomains cTwo) vA [])
      (domOf (initialDomains cTwo) vA) ∧
    List.Pairwise (fun a b =>
        ruledOut cTwo (initialDomains cTwo) [] vA a ≤
        ruledOut cTwo (initialDomains cTwo) [] vA b)
      (order_domain_values cTwo (initialDomains cTwo) vA []) :=
  claim_C7_lcv_ordering cTwo (initialDomains cTwo) vA [] (by decide)

/-! ### Malformed neighbor relation (claim C9)

The source's `consistent` handles a neighbor pair with no recorded overlap by
an ordinary `return False` (an explicit check precedes the index unpacking) —
no exception, no diagnostic.  The solver *can* still die on a malformed model,
but only accidentally and elsewhere: `order_domain_values` unpacks the overlap
of an *unassigned* neighbor, raising `TypeError` when it is `None`.  The model
below therefore reports the missing-overlap neighbor relation asymmetrically:
only the length-2 slot lists the length-1 slot as a neighbor.  MRV then assigns
the length-1 slot first (its post-pruning domain is the smaller), so whenever
`order_domain_values` runs for the reporting slot its sole neighbor is already
assigned and is skipped by the `continue` that precedes the unpacking — the
missing overlap is only ever consulted by `consistent`, every step of the run
is a normal return in the source as in the embedding, and `solve` ends in the
ordinary "no solution" outcome, contradicting the claimed fail-fast abort. -/

/-- A malformed Puzzle Model: `uB2` reports `v1` as a neighbor, yet no overlap
is recorded for the pair (and `v1`, reported by nobody, has no neighbors). -/
def uB2 : Variable := ⟨0, 0, true, 2⟩

def cBad : Crossword :=
  { vars := [v1, uB2]
    words := [['a'], ['b', 'c'], ['d', 'e']]
    overlaps := fun _ _ => none
    neighbors := fun u => if u = uB2 then [v1] else [] }

/-- Counterexample for C9: on the malformed model, an assignment of both
neighbors with correct lengths and distinct words is reported inconsistent
through the ordinary `False` return of `consistent` — not by aborting — and
the full solve runs to the normal "no solution" result, indistinguishable
from an unsatisfiable puzzle.  (On this model's run no code path raises:
the sole missing-overlap neighbor consulted by `order_domain_values` is
already assigned and skipped before the unpacking.) -/
theorem claim_C9_counterexample :
    consistent cBad [(v1, ['a']), (uB2, ['b', 'c'])] = false ∧
    solve cBad = none := by
  decide

/-- C9 (amended): if the puzzle model reports two assigned variables as
neighbors without a usable overlap, `consistent` silently returns `False`,
treating the situation as an ordinary inconsistency rather than failing fast
with a diagnostic. -/
theorem claim_C9_amended_silent_toleration (c : Crossword) (asg : Assignment)
    (v n : Variable) (wv : Word) (wn : Word)
    (hv : (v, wv) ∈ asg) (hn : n ∈ c.neighbors v)
    (hlookup : alookup asg n = some wn)
    (hnov : c.overlaps v n = none) :
    consistent c asg = false := by
  by_contra hne
  have htrue : consistent c asg = true := by
    cases h : consistent c asg
    · exact absurd h hne
    · rfl
  unfold consistent at htrue
  rw [Bool.and_eq_true] at htrue
  have h1 := List.all_eq_true.mp htrue.1 (v, wv) hv
  rw [Bool.and_eq_true] at h1
  have h2 := List.all_eq_true.mp h1.2 n hn
  rw [hlookup, hnov] at h2
  simp at h2

/-- Witness for the amended C9, applying it on the malformed model with the
reporting slot `uB2` holding its other domain word. -/
theorem claim_C9_witness :
    consistent cBad [(v1, ['a']), (uB2, ['d', 'e'])] = false :=
  claim_C9_amended_silent_toleration cBad [(v1, ['a']), (uB2, ['d', 'e'])]
    uB2 v1 ['d', 'e'] ['a'] (by decide) (by decide) (by decide) (by decide)

/-! ### Characterizing `consistent` -/

theorem dedup_length_eq_iff {α : Type} [DecidableEq α] (l : List α) :
    l.dedup.length = l.length ↔ l.Nodup := by
  constructor
  · intro h
    have hsub := List.dedup_sublist l
    have heq := List.Sublist.eq_of_length hsub h
    rw [← heq]
    exact List.nodup_dedup l
  · intro h
    rw [List.dedup_eq_self.mpr h]

theorem consistent_iff (c : Crossword) (asg : Assignment) :
    consistent c asg = true ↔
      ((∀ p ∈ asg, p.2.length = p.1.length ∧
          ∀ n ∈ c.neighbors p.1, ∀ wn, alookup asg n = some wn →
            ∃ i j, c.overlaps p.1 n = some (i, j) ∧ p.2.get? i = wn.get? j) ∧
        (asg.map Prod.snd).Nodup) := by
  unfold consistent
  rw [Bool.and_eq_true]
  constructor
  · rintro ⟨h1, h2⟩
    refine ⟨?_, (dedup_length_eq_iff _).mp (of_decide_eq_true h2)⟩
    intro p hp
    have hall := List.all_eq_true.mp h1 p hp
    rw [Bool.and_eq_true] at hall
    refine ⟨of_decide_eq_true hall.1, ?_⟩
    intro n hn wn hwn
    have hch := List.all_eq_true.mp hall.2 n hn
    rw [hwn] at hch
    cases hov : c.overlaps p.1 n with
    | none =>
      rw [hov] at hch
      simp at hch
    | some q =>
      obtain ⟨i, j⟩ := q
      rw [hov] at hch
      simp at hch
      exact ⟨i, j, rfl, by rw [List.get?_eq_getElem?, List.get?_eq_getElem?]; exact hch⟩
  · rintro ⟨h1, h2⟩
    refine ⟨?_, decide_eq_true ((dedup_length_eq_iff _).mpr h2)⟩
    rw [List.all_eq_true]
    intro p hp
    rw [Bool.and_eq_true]
    rcases h1 p hp with ⟨hlen, hpair⟩
    refine ⟨decide_eq_true hlen, ?_⟩
    rw [List.all_eq_true]
    intro n hn
    cases hwn : alookup asg n with
    | none => simp
    | some wn =>
      rcases hpair n hn wn hwn with ⟨i, j, hov, heq⟩
      rw [hov]
      rw [List.get?_eq_getElem?, List.get?_eq_getElem?] at heq
      simp [heq]

theorem consistent_nil (c : Crossword) : consistent c [] = true := by
  unfold consistent
  simp

/-! ### Search soundness (claim C1) -/

theorem alookup_eraseKey_self (asg : Assignment) (v : Variable) :
    alookup (eraseKey asg v) v = none := by
  rw [alookup_eq_none]
  intro x hx
  rcases List.mem_filter.mp hx with ⟨_, hd⟩
  simp at hd

/-- If the recursive search only returns complete consistent assignments on
consistent inputs, so does the candidate loop. -/
theorem btVals_sound (c : Crossword)
    (bt : Assignment → Option Assignment × Assignment) (var : Variable)
    (hbt : ∀ asg', consistent c asg' = true → ∀ m, (bt asg').1 = some m →
      assignment_complete c m = true ∧ consistent c m = true) :
    ∀ (vals : List Word) (asg : Assignment) (m : Assignment),
      (btVals c bt var asg vals).1 = some m →
      assignment_complete c m = true ∧ consistent c m = true := by
  intro vals
  induction vals with
  | nil =>
    intro asg m h
    cases h
  | cons val rest ih =>
    intro asg m h
    simp only [btVals] at h
    by_cases hcons : consistent c (aset asg var val) = true
    · rw [if_pos hcons] at h
      by_cases htr : truthy (bt (aset asg var val)).1 = true
      · rw [if_pos htr] at h
        exact hbt _ hcons m h
      · rw [if_neg htr] at h
        exact ih _ m h
    · rw [if_neg hcons] at h
      exact ih _ m h

/-- Any assignment returned by the backtracking search from a consistent
start is complete and consistent. -/
theorem btRun_sound (c : Crossword) (doms : Domains) :
    ∀ (fuel : Nat) (asg : Assignment), consistent c asg = true →
      ∀ m, (btRun c doms fuel asg).1 = some m →
        assignment_complete c m = true ∧ consistent c m = true := by
  intro fuel
  induction fuel with
  | zero =>
    intro asg _ m h
    cases h
  | succ fuel ih =>
    intro asg hcons m h
    simp only [btRun] at h
    by_cases hc : assignment_complete c asg = true
    · rw [if_pos hc] at h
      simp at h
      rw [← h]
      exact ⟨hc, hcons⟩
    · rw [if_neg hc] at h
      cases hsel : select_unassigned_variable c doms asg with
      | none =>
        rw [hsel] at h
        cases h
      | some var =>
        rw [hsel] at h
        exact btVals_sound c (btRun c doms fuel) var ih _ asg m h

/-- C1: whenever `solve()` returns an assignment, it is complete (every
variable of the puzzle is mapped to a word) and consistent: each assigned
word's length equals its variable's required length, every pair of assigned
variables with a recorded overlap agrees at the overlap indices, and all
assigned words are pairwise distinct.  `ModelWF` is the Puzzle Model
contract tying recorded overlaps to the neighbor relation that `consistent`
consults. -/
theorem claim_C1_search_soundness (c : Crossword) (a : Assignment)
    (hwf : ModelWF c) (h : solve c = some a) :
    (∀ v ∈ c.vars, ∃ w, alookup a v = some w) ∧
    (∀ p ∈ a, p.2.length = p.1.length) ∧
    (∀ u ∈ c.vars, ∀ v ∈ c.vars, u ≠ v → ∀ i j, c.overlaps u v = some (i, j) →
      ∀ wu wv, alookup a u = some wu → alookup a v = some wv →
        wu.get? i = wv.get? j) ∧
    (a.map Prod.snd).Nodup := by
  unfold solve backtrack at h
  have hsound := btRun_sound c (ac3 c (enforce_node_consistency (initialDomains c))).1
    ((ac3 c (enforce_node_consistency (initialDomains c))).1.length + 1) []
    (consistent_nil c) a h
  rcases hsound with ⟨hcomp, hcons⟩
  rcases (consistent_iff c a).mp hcons with ⟨hprops, hnodup⟩
  refine ⟨?_, ?_, ?_, hnodup⟩
  · intro v hv
    have := List.all_eq_true.mp hcomp v hv
    unfold isAssigned at this
    exact Option.isSome_iff_exists.mp this
  · intro p hp
    exact (hprops p hp).1
  · intro u hu v hv huv i j hov wu wv hlu hlv
    have hmemu : (u, wu) ∈ a := mem_of_alookup_eq_some hlu
    have hnbrs := hwf.1 u hu
    have hvmem : v ∈ c.neighbors u := by
      rw [hnbrs.mem_iff]
      refine List.mem_filter.mpr ⟨hv, ?_⟩
      simp [Ne.symm huv, hov]
    rcases (hprops (u, wu) hmemu).2 v hvmem wv hlv with ⟨i', j', hov', heq⟩
    rw [hov] at hov'
    simp only [Option.some.injEq, Prod.mk.injEq] at hov'
    rcases hov' with ⟨hi, hj⟩
    rw [hi, hj]
    exact heq

/-- Witness for C1: the concrete crossing puzzle is solved, and the returned
assignment satisfies all four properties. -/
theorem claim_C1_witness :
    (∀ v ∈ cTwo.vars, ∃ w, alookup [(vA, ['a', 'b']), (vB, ['a', 'c'])] v = some w) ∧
    (∀ p ∈ ([(vA, ['a', 'b']), (vB, ['a', 'c'])] : Assignment), p.2.length = p.1.length) ∧
    (∀ u ∈ cTwo.vars, ∀ v ∈ cTwo.vars, u ≠ v → ∀ i j, cTwo.overlaps u v = some (i, j) →
      ∀ wu wv, alookup [(vA, ['a', 'b']), (vB, ['a', 'c'])] u = some wu →
        alookup [(vA, ['a', 'b']), (vB, ['a', 'c'])] v = some wv →
        wu.get? i = wv.get? j) ∧
    (([(vA, ['a', 'b']), (vB, ['a', 'c'])] : Assignment).map Prod.snd).Nodup :=
  claim_C1_search_soundness cTwo [(vA, ['a', 'b']), (vB, ['a', 'c'])]
    (by decide) (by decide)

/-! ### The ac3 worklist: bookkeeping lemmas -/

theorem keys_enforce (d : Domains) :
    (enforce_node_consistency d).map Prod.fst = d.map Prod.fst := by
  unfold enforce_node_consistency
  rw [List.map_map]
  rfl

theorem keys_init (c : Crossword) : (initialDomains c).map Prod.fst = c.vars := by
  unfold initialDomains
  rw [List.map_map]
  exact List.map_id _

theorem alookup_isSome_of_mem_keys {α : Type} {l : List (Variable × α)} {v : Variable}
    (h : v ∈ l.map Prod.fst) : (alookup l v).isSome = true := by
  induction l with
  | nil => simp at h
  | cons p rest ih =>
    rw [alookup_cons]
    by_cases hp : p.1 = v
    · simp [hp]
    · rw [List.map_cons] at h
      rcases List.mem_cons.mp h with h1 | h1
      · exact absurd h1.symm hp
      · simp only [hp, if_false]
        exact ih h1

theorem mem_keys_of_alookup_isSome {α : Type} {l : List (Variable × α)} {v : Variable}
    (h : (alookup l v).isSome = true) : v ∈ l.map Prod.fst := by
  rcases Option.isSome_iff_exists.mp h with ⟨x, hx⟩
  exact List.mem_map.mpr ⟨(v, x), mem_of_alookup_eq_some hx, rfl⟩

theorem alookup_revise_ne {c : Crossword} {doms : Domains} {x y v : Variable}
    (h : v ≠ x) : alookup (revise c doms x y).1 v = alookup doms v := by
  unfold revise
  cases hov : c.overlaps x y with
  | none => rfl
  | some q =>
    obtain ⟨i, j⟩ := q
    exact alookup_domSet_ne _ _ h

theorem domOf_revise_ne {c : Crossword} {doms : Domains} {x y v : Variable}
    (h : v ≠ x) : domOf (revise c doms x y).1 v = domOf doms v := by
  unfold domOf
  rw [alookup_revise_ne h]

theorem keys_revise (c : Crossword) (doms : Domains) (x y : Variable) :
    ((revise c doms x y).1).map Prod.fst = doms.map Prod.fst := by
  unfold revise
  cases hov : c.overlaps x y with
  | none => rfl
  | some q =>
    obtain ⟨i, j⟩ := q
    exact keys_domSet _ _ _

theorem revise_of_none {c : Crossword} {doms : Domains} {x y : Variable}
    (hov : c.overlaps x y = none) : revise c doms x y = (doms, false) := by
  unfold revise
  rw [hov]

theorem revise_of_overlap {c : Crossword} {doms : Domains} {x y : Variable} {i j : Nat}
    (hov : c.overlaps x y = some (i, j)) :
    revise c doms x y =
      (domSet doms x ((domOf doms x).filter
          (fun w => (domOf doms y).any (fun v => decide (w.get? i = v.get? j)))),
        ! ((domOf doms x).filter (fun w =>
          ! (domOf doms y).any (fun v => decide (w.get? i = v.get? j)))).isEmpty) := by
  unfold revise
  rw [hov]

theorem revise_removed_facts {c : Crossword} {doms : Domains} {x y : Variable}
    (h : (revise c doms x y).2 = true) :
    totalSize (revise c doms x y).1 < totalSize doms ∧
    (alookup doms x).isSome = true := by
  cases hov : c.overlaps x y with
  | none =>
    rw [revise_of_none hov] at h
    cases h
  | some q =>
    obtain ⟨i, j⟩ := q
    rw [revise_of_overlap hov] at h ⊢
    cases halo : alookup doms x with
    | none =>
      have hdx : domOf doms x = [] := by simp [domOf, halo]
      rw [hdx] at h
      simp at h
    | some d0 =>
      have hdx : domOf doms x = d0 := by simp [domOf, halo]
      rw [hdx] at h ⊢
      refine ⟨?_, rfl⟩
      apply totalSize_domSet_lt halo
      have hne : d0.filter (fun w =>
          ! (domOf doms y).any (fun v => decide (w.get? i = v.get? j))) ≠ [] := by
        intro hnil
        rw [hnil] at h
        simp at h
      have hpos : 0 < (d0.filter (fun w =>
          ! (domOf doms y).any (fun v => decide (w.get? i = v.get? j)))).length :=
        List.length_pos.mpr hne
      have hpart := countP_partition d0
        (fun w => (domOf doms y).any (fun v => decide (w.get? i = v.get? j)))
      rw [List.countP_eq_length_filter, List.countP_eq_length_filter] at hpart
      omega

theorem ac3go_keys (c : Crossword) :
    ∀ (fuel : Nat) (doms : Domains) (q : List (Variable × Variable)),
      ((ac3go c fuel doms q).1).map Prod.fst = doms.map Prod.fst := by
  intro fuel
  induction fuel with
  | zero =>
    intro doms q
    cases q with
    | nil => rfl
    | cons p t => rfl
  | succ fuel ih =>
    intro doms q
    cases q with
    | nil => rfl
    | cons p t =>
      obtain ⟨x, y⟩ := p
      simp only [ac3go]
      by_cases hrem : (revise c doms x y).2 = true
      · rw [if_pos hrem]
        by_cases hemp : (domOf (revise c doms x y).1 x).length = 0
        · rw [if_pos hemp]
          exact keys_revise c doms x y
        · rw [if_neg hemp]
          rw [ih]
          exact keys_revise c doms x y
      · rw [if_neg hrem]
        exact ih doms t

/-! ### Well-formed models and good queues -/

/-- Both endpoints of every queued arc are puzzle variables and the arc goes
to a neighbor. -/
def QueueGood (c : Crossword) (q : List (Variable × Variable)) : Prop :=
  ∀ p ∈ q, p.1 ∈ c.vars ∧ p.2 ∈ c.vars ∧ p.2 ∈ c.neighbors p.1

theorem mem_neighbors_iff {c : Crossword} (hwf : ModelWF c) {v : Variable}
    (hv : v ∈ c.vars) (u : Variable) :
    u ∈ c.neighbors v ↔ (u ∈ c.vars ∧ u ≠ v ∧ (c.overlaps v u).isSome = true) := by
  rw [(hwf.1 v hv).mem_iff, List.mem_filter]
  simp

theorem neighbors_length_le {c : Crossword} (hwf : ModelWF c) {v : Variable}
    (hv : v ∈ c.vars) : (c.neighbors v).length ≤ c.vars.length := by
  rw [(hwf.1 v hv).length_eq]
  exact List.length_filter_le _ _

theorem overlaps_symm {c : Crossword} (hwf : ModelWF c) {u v : Variable}
    (hu : u ∈ c.vars) (hv : v ∈ c.vars) {i j : Nat}
    (h : c.overlaps u v = some (i, j)) : c.overlaps v u = some (j, i) := by
  rw [hwf.2 u hu v hv, h]
  rfl

theorem neighbors_symm {c : Crossword} (hwf : ModelWF c) {u v : Variable}
    (hv : v ∈ c.vars) (hu : u ∈ c.neighbors v) : v ∈ c.neighbors u := by
  rcases (mem_neighbors_iff hwf hv u).mp hu with ⟨huv, hne, hsome⟩
  rw [mem_neighbors_iff hwf huv]
  refine ⟨hv, Ne.symm hne, ?_⟩
  rcases Option.isSome_iff_exists.mp hsome with ⟨q, hq⟩
  obtain ⟨i, j⟩ := q
  rw [overlaps_symm hwf hv huv hq]
  rfl

theorem queuegood_initial {c : Crossword} (hwf : ModelWF c) :
    QueueGood c (initialArcs c) := by
  intro p hp
  rw [initialArcs, List.mem_reverse] at hp
  rcases List.mem_flatMap.mp hp with ⟨x, hx, hmap⟩
  rcases List.mem_map.mp hmap with ⟨y, hy, rfl⟩
  exact ⟨hx, ((mem_neighbors_iff hwf hx y).mp hy).1, hy⟩

theorem queuegood_step {c : Crossword} (hwf : ModelWF c) {x y : Variable}
    {rest : List (Variable × Variable)} (hq : QueueGood c ((x, y) :: rest)) :
    QueueGood c ((((c.neighbors x).filter (fun z => decide (z ≠ y))).map
        (fun z => (z, x))).reverse ++ rest) := by
  have hx : x ∈ c.vars := (hq (x, y) (List.mem_cons_self _ _)).1
  intro p hp
  rw [List.mem_append, List.mem_reverse] at hp
  rcases hp with hp | hp
  · rcases List.mem_map.mp hp with ⟨z, hz, rfl⟩
    have hzn : z ∈ c.neighbors x := List.mem_of_mem_filter hz
    have hzv := ((mem_neighbors_iff hwf hx z).mp hzn).1
    exact ⟨hzv, hx, neighbors_symm hwf hx hzn⟩
  · exact hq p (List.mem_cons_of_mem _ hp)

/-! ### Arc-consistency failure means an emptied domain (towards claim C3) -/

/-- With fuel above the termination measure, a failure report from the
worklist loop always comes from an emptied domain, never from fuel
exhaustion. -/
theorem ac3go_false_empty {c : Crossword} (hwf : ModelWF c) :
    ∀ (fuel : Nat) (doms : Domains) (q : List (Variable × Variable)),
      QueueGood c q →
      totalSize doms * (c.vars.length + 2) + q.length < fuel →
      ∀ d', ac3go c fuel doms q = (d', false) →
        ∃ x, alookup d' x = some [] := by
  intro fuel
  induction fuel with
  | zero =>
    intro doms q _ hmu d' h
    exact absurd hmu (Nat.not_lt_zero _)
  | succ fuel ih =>
    intro doms q hq hmu d' h
    cases q with
    | nil =>
      simp only [ac3go] at h
      simp at h
    | cons p rest =>
      obtain ⟨x, y⟩ := p
      simp only [ac3go] at h
      by_cases hrem : (revise c doms x y).2 = true
      · rw [if_pos hrem] at h
        by_cases hemp : (domOf (revise c doms x y).1 x).length = 0
        · rw [if_pos hemp] at h
          have hd : (revise c doms x y).1 = d' := congrArg Prod.fst h
          rcases revise_removed_facts hrem with ⟨_, hsome⟩
          have hkeys : x ∈ ((revise c doms x y).1).map Prod.fst := by
            rw [keys_revise]
            exact mem_keys_of_alookup_isSome hsome
          rcases Option.isSome_iff_exists.mp (alookup_isSome_of_mem_keys hkeys) with ⟨dx, hdx⟩
          have hdom : domOf (revise c doms x y).1 x = dx := by simp [domOf, hdx]
          rw [hdom] at hemp
          have : dx = [] := List.eq_nil_of_length_eq_zero hemp
          subst this
          exact ⟨x, by rw [← hd]; exact hdx⟩
        · rw [if_neg hemp] at h
          apply ih _ _ (queuegood_step hwf hq) ?_ d' h
          rcases revise_removed_facts hrem with ⟨hlt, _⟩
          have hlen : ((((c.neighbors x).filter (fun z => decide (z ≠ y))).map
              (fun z => (z, x))).reverse ++ rest).length ≤ c.vars.length + rest.length := by
            rw [List.length_append, List.length_reverse, List.length_map]
            have h1 : ((c.neighbors x).filter (fun z => decide (z ≠ y))).length ≤
                (c.neighbors x).length := List.length_filter_le _ _
            have hx : x ∈ c.vars := (hq (x, y) (List.mem_cons_self _ _)).1
            have h2 := neighbors_length_le hwf hx
            omega
          have hmul : (totalSize (revise c doms x y).1 + 1) * (c.vars.length + 2) ≤
              totalSize doms * (c.vars.length + 2) :=
            Nat.mul_le_mul_right _ (Nat.succ_le_of_lt hlt)
          rw [Nat.succ_mul] at hmul
          simp only [List.length_cons] at hmu
          revert hmul hmu hlen
          generalize totalSize (revise c doms x y).1 * (c.vars.length + 2) = X
          generalize totalSize doms * (c.vars.length + 2) = Y
          intro hmul hmu hlen
          omega
      · rw [if_neg hrem] at h
        apply ih doms rest (fun p hp => hq p (List.mem_cons_of_mem _ hp)) ?_ d' h
        simp only [List.length_cons] at hmu
        revert hmu
        generalize totalSize doms * (c.vars.length + 2) = Y
        intro hmu
        omega

/-- Failure of the full `ac3` pass (on a well-formed model) exhibits an
emptied domain in the final store. -/
theorem ac3_false_empty {c : Crossword} (hwf : ModelWF c) (doms : Domains)
    {d' : Domains} (h : ac3 c doms = (d', false)) :
    ∃ x, alookup d' x = some [] := by
  apply ac3go_false_empty hwf _ doms (initialArcs c) (queuegood_initial hwf) _ d' h
  omega

/-- Selection succeeds as soon as one unassigned variable exists, and the
selected variable is minimal in the Python sort order. -/
theorem select_exists_min (c : Crossword) (doms : Domains) (asg : Assignment)
    {v0 : Variable} (hv0 : v0 ∈ doms.map Prod.fst) (hun : isAssigned asg v0 = false) :
    ∃ var, select_unassigned_variable c doms asg = some var ∧
      ∀ u ∈ doms.map Prod.fst, isAssigned asg u = false → selRel c doms var u := by
  have hne : ((doms.map Prod.fst).filter (fun v => ! isAssigned asg v)) ≠ [] := by
    intro hnil
    have : v0 ∈ (doms.map Prod.fst).filter (fun v => ! isAssigned asg v) :=
      List.mem_filter.mpr ⟨hv0, by simp [hun]⟩
    rw [hnil] at this
    simp at this
  have hslen : (List.insertionSort (selRel c doms)
      ((doms.map Prod.fst).filter (fun v => ! isAssigned asg v))) ≠ [] := by
    intro hnil
    have := List.length_insertionSort (selRel c doms)
      ((doms.map Prod.fst).filter (fun v => ! isAssigned asg v))
    rw [hnil] at this
    exact hne (List.eq_nil_of_length_eq_zero this.symm)
  cases hh : (List.insertionSort (selRel c doms)
      ((doms.map Prod.fst).filter (fun v => ! isAssigned asg v))).head? with
  | none =>
    rw [List.head?_eq_none_iff] at hh
    exact absurd hh hslen
  | some var =>
    have hmin := head_insertionSort_min (selRel c doms) _ var hh
    refine ⟨var, hh, ?_⟩
    intro u hu huu
    exact hmin u (List.mem_filter.mpr ⟨hu, by simp [huu]⟩)

/-- Backtracking from the empty assignment fails at once when some stored
domain is empty: the MRV heuristic selects a variable with an empty domain,
which offers no candidate values. -/
theorem btRun_none_of_empty_dom (c : Crossword) (doms : Domains) (x : Variable)
    (hx : alookup doms x = some []) (hkeys : doms.map Prod.fst = c.vars)
    (fuel : Nat) : (btRun c doms (fuel + 1) []).1 = none := by
  have hxk : x ∈ doms.map Prod.fst :=
    List.mem_map.mpr ⟨(x, []), mem_of_alookup_eq_some hx, rfl⟩
  have hxv : x ∈ c.vars := hkeys ▸ hxk
  have hun : isAssigned ([] : Assignment) x = false := rfl
  have hinc : ¬ (assignment_complete c [] = true) := by
    unfold assignment_complete
    intro hall
    have := List.all_eq_true.mp hall x hxv
    simp [isAssigned, alookup] at this
  rcases select_exists_min c doms [] hxk hun with ⟨var, hsel, hmin⟩
  have hvar0 : (domOf doms var).length = 0 := by
    have hrel := hmin x hxk hun
    unfold selRel at hrel
    have hdx : (domOf doms x).length = 0 := by simp [domOf, hx]
    rcases hrel with h1 | ⟨h1, _⟩ <;> omega
  have hdomvar : domOf doms var = [] := List.eq_nil_of_length_eq_zero hvar0
  have hord : order_domain_values c doms var [] = [] := by
    unfold order_domain_values
    rw [hdomvar]
    rfl
  simp only [btRun]
  rw [if_neg hinc, hsel]
  show (btVals c (btRun c doms fuel) var [] (order_domain_values c doms var [])).1 = none
  rw [hord]
  rfl

/-! ### Claim C3: failed propagation and the search invocation -/

/-- A crossing pair whose overlap is unsatisfiable: the length-1 slot would
need to match the last character of "bc", but the only length-1 word is "a".
Arc-consistency propagation empties a domain here. -/
def vE1 : Variable := ⟨0, 0, false, 1⟩

def vE2 : Variable := ⟨0, 0, true, 2⟩

def cEmpty : Crossword :=
  { vars := [vE1, vE2]
    words := [['a'], ['b', 'c']]
    overlaps := fun u v =>
      if u = vE1 ∧ v = vE2 then some (0, 1)
      else if u = vE2 ∧ v = vE1 then some (1, 0)
      else none
    neighbors := fun u => if u = vE1 then [vE2] else if u = vE2 then [vE1] else [] }

/-- Counterexample for C3: on `cEmpty`, arc consistency reports failure, yet
`solve()` still invokes the backtracking search — the source discards the
value of `self.ac3()` and calls `self.backtrack(dict())` unconditionally, so
the invocation flag of `solveTrace` is true even on this failing run,
contradicting "without invoking the backtracking search at all". -/
theorem claim_C3_counterexample :
    (ac3 cEmpty (enforce_node_consistency (initialDomains cEmpty))).2 = false ∧
    (solveTrace cEmpty).2 = true ∧
    (solveSpecTrace cEmpty).2 = false := by
  decide

/-- C3 (amended): `solve()` ignores the result of `ac3` and always invokes
the backtracking search; nevertheless, when arc-consistency propagation
reports failure (a domain emptied), the search fails immediately on the
emptied domain, so `solve()` still returns "no solution". -/
theorem claim_C3_amended_no_solution (c : Crossword) (hwf : ModelWF c)
    (h : (ac3 c (enforce_node_consistency (initialDomains c))).2 = false) :
    solve c = none := by
  have heq : ac3 c (enforce_node_consistency (initialDomains c)) =
      ((ac3 c (enforce_node_consistency (initialDomains c))).1, false) := by
    rw [← h]
  rcases ac3_false_empty hwf (enforce_node_consistency (initialDomains c)) heq with ⟨x, hx⟩
  have hkeys : (((ac3 c (enforce_node_consistency (initialDomains c))).1).map Prod.fst)
      = c.vars := by
    show ((ac3go c _ (enforce_node_consistency (initialDomains c))
        (initialArcs c)).1).map Prod.fst = c.vars
    rw [ac3go_keys, keys_enforce, keys_init]
  show (backtrack c (ac3 c (enforce_node_consistency (initialDomains c))).1 []).1 = none
  unfold backtrack
  exact btRun_none_of_empty_dom c _ x hx hkeys _

/-- Witness for the amended C3 on the concrete puzzle `cEmpty`. -/
theorem claim_C3_witness : solve cEmpty = none :=
  claim_C3_amended_no_solution cEmpty (by decide) (by decide)

/-! ### Arc-consistency soundness (claim C5) -/

/-- The arc `(x, y)` holds: every word of `x`'s domain has a support in
`y`'s domain at the recorded overlap. -/
def Supported (c : Crossword) (doms : Domains) (x y : Variable) : Prop :=
  ∀ w ∈ domOf doms x, ∀ i j, c.overlaps x y = some (i, j) →
    ∃ v ∈ domOf doms y, w.get? i = v.get? j

theorem domOf_revise_x {c : Crossword} {doms : Domains} {x y : Variable} {i j : Nat}
    (hov : c.overlaps x y = some (i, j)) :
    domOf (revise c doms x y).1 x =
      (domOf doms x).filter
        (fun w => (domOf doms y).any (fun v => decide (w.get? i = v.get? j))) := by
  rw [revise_of_overlap hov]
  show domOf (domSet doms x ((domOf doms x).filter
      (fun w => (domOf doms y).any (fun v => decide (w.get? i = v.get? j))))) x = _
  cases halo : alookup doms x with
  | none =>
    have hdx : domOf doms x = [] := by simp [domOf, halo]
    rw [domSet_of_alookup_none halo, hdx]
    rfl
  | some d0 =>
    unfold domOf
    rw [alookup_domSet_self halo]
    rfl

theorem domOf_revise_subset {c : Crossword} {doms : Domains} {x y v : Variable} :
    ∀ w ∈ domOf (revise c doms x y).1 v, w ∈ domOf doms v := by
  intro w hw
  by_cases hvx : v = x
  · subst hvx
    cases hov : c.overlaps v y with
    | none =>
      rw [revise_of_none hov] at hw
      exact hw
    | some q =>
      obtain ⟨i, j⟩ := q
      rw [domOf_revise_x hov] at hw
      exact (List.mem_filter.mp hw).1
  · rw [domOf_revise_ne hvx] at hw
    exact hw

theorem revise_false_supported {c : Crossword} {doms : Domains} {x y : Variable}
    (h : (revise c doms x y).2 = false) : Supported c doms x y := by
  intro w hw i j hov
  rw [revise_of_overlap hov] at h
  have h' : (!((domOf doms x).filter (fun w =>
      ! (domOf doms y).any (fun v => decide (w.get? i = v.get? j)))).isEmpty) = false := h
  have hnil : (domOf doms x).filter (fun w =>
      ! (domOf doms y).any (fun v => decide (w.get? i = v.get? j))) = [] := by
    cases he : ((domOf doms x).filter (fun w =>
        ! (domOf doms y).any (fun v => decide (w.get? i = v.get? j)))).isEmpty
    · rw [he] at h'
      cases h'
    · exact List.isEmpty_iff.mp he
  by_cases hk : (domOf doms y).any (fun v => decide (w.get? i = v.get? j)) = true
  · rcases List.any_eq_true.mp hk with ⟨v, hv, hd⟩
    exact ⟨v, hv, of_decide_eq_true hd⟩
  · exfalso
    have hkf : ((domOf doms y).any (fun v => decide (w.get? i = v.get? j))) = false := by
      cases hany : ((domOf doms y).any (fun v => decide (w.get? i = v.get? j)))
      · rfl
      · exact absurd hany hk
    have hmem : w ∈ (domOf doms x).filter (fun w =>
        ! (domOf doms y).any (fun v => decide (w.get? i = v.get? j))) :=
      List.mem_filter.mpr ⟨hw, by rw [hkf]; rfl⟩
    rw [hnil] at hmem
    simp at hmem

theorem domSet_domOf (d : Domains) (x : Variable) : domSet d x (domOf d x) = d := by
  induction d with
  | nil => rfl
  | cons p rest ih =>
    obtain ⟨k, dv⟩ := p
    by_cases hp : k = x
    · subst hp
      have hdom : domOf ((k, dv) :: rest) k = dv := by
        unfold domOf
        rw [alookup_cons]
        simp
      rw [hdom]
      simp [domSet]
    · have hdom : domOf ((k, dv) :: rest) x = domOf rest x := by
        unfold domOf
        rw [alookup_cons]
        simp [hp]
      rw [hdom]
      simp [domSet, hp, ih]

/-- A supported arc is a fixpoint of `revise`: no further revision removes
anything. -/
theorem supported_revise_fix {c : Crossword} {doms' : Domains} {x y : Variable}
    (hs : Supported c doms' x y) : revise c doms' x y = (doms', false) := by
  cases hov : c.overlaps x y with
  | none => exact revise_of_none hov
  | some q =>
    obtain ⟨i, j⟩ := q
    rw [revise_of_overlap hov]
    have hall : ∀ w ∈ domOf doms' x,
        ((domOf doms' y).any (fun v => decide (w.get? i = v.get? j))) = true := by
      intro w hw
      rcases hs w hw i j hov with ⟨v, hv, heq⟩
      exact List.any_eq_true.mpr ⟨v, hv, decide_eq_true heq⟩
    have hfilter : (domOf doms' x).filter
        (fun w => (domOf doms' y).any (fun v => decide (w.get? i = v.get? j))) =
        domOf doms' x := by
      rw [List.filter_eq_self]
      exact hall
    have hnil : (domOf doms' x).filter (fun w =>
        ! (domOf doms' y).any (fun v => decide (w.get? i = v.get? j))) = [] := by
      rw [List.filter_eq_nil_iff]
      intro w hw
      rw [hall w hw]
      simp
    rw [hfilter, hnil, domSet_domOf]
    rfl

/-- The AC-3 worklist invariant: every neighbor arc is either still queued or
already supported.  On success the final store supports every arc. -/
theorem ac3go_inv {c : Crossword} (hwf : ModelWF c) :
    ∀ (fuel : Nat) (doms : Domains) (q : List (Variable × Variable)) (d' : Domains),
      QueueGood c q →
      (∀ a ∈ c.vars, ∀ b ∈ c.neighbors a, (a, b) ∈ q ∨ Supported c doms a b) →
      ac3go c fuel doms q = (d', true) →
      ∀ a ∈ c.vars, ∀ b ∈ c.neighbors a, Supported c d' a b := by
  intro fuel
  induction fuel with
  | zero =>
    intro doms q d' hq hinv h
    cases q with
    | nil =>
      simp only [ac3go] at h
      have hd : doms = d' := congrArg Prod.fst h
      subst hd
      intro a ha b hb
      rcases hinv a ha b hb with hmem | hsupp
      · simp at hmem
      · exact hsupp
    | cons p t =>
      simp only [ac3go] at h
      simp at h
  | succ fuel ih =>
    intro doms q d' hq hinv h
    cases q with
    | nil =>
      simp only [ac3go] at h
      have hd : doms = d' := congrArg Prod.fst h
      subst hd
      intro a ha b hb
      rcases hinv a ha b hb with hmem | hsupp
      · simp at hmem
      · exact hsupp
    | cons p rest =>
      obtain ⟨x, y⟩ := p
      have hx : x ∈ c.vars := (hq _ (List.mem_cons_self _ _)).1
      have hy : y ∈ c.vars := (hq _ (List.mem_cons_self _ _)).2.1
      have hyx : y ∈ c.neighbors x := (hq _ (List.mem_cons_self _ _)).2.2
      have hynx : y ≠ x := ((mem_neighbors_iff hwf hx y).mp hyx).2.1
      simp only [ac3go] at h
      by_cases hrem : (revise c doms x y).2 = true
      · rw [if_pos hrem] at h
        by_cases hemp : (domOf (revise c doms x y).1 x).length = 0
        · rw [if_pos hemp] at h
          simp at h
        · rw [if_neg hemp] at h
          apply ih _ _ d' (queuegood_step hwf hq) ?_ h
          intro a ha b hb
          rcases hinv a ha b hb with hmem | hsupp
          · rcases List.mem_cons.mp hmem with heqp | hmem'
            · injection heqp with h1 h2
              subst h1
              subst h2
              right
              intro w hw i j hov
              rw [domOf_revise_x hov] at hw
              rcases List.mem_filter.mp hw with ⟨hwx, hany⟩
              rcases List.any_eq_true.mp hany with ⟨v, hv, hd⟩
              refine ⟨v, ?_, of_decide_eq_true hd⟩
              rw [domOf_revise_ne hynx]
              exact hv
            · left
              exact List.mem_append.mpr (Or.inr hmem')
          · by_cases hbx : b = x
            · by_cases hay : a = y
              · right
                intro w hw i2 j2 hovab
                have hax : a ≠ x := by
                  rw [hay]
                  exact hynx
                have hwold : w ∈ domOf doms a := by
                  rw [domOf_revise_ne hax] at hw
                  exact hw
                rcases hsupp w hwold i2 j2 hovab with ⟨v, hv, hveq⟩
                have hovyx : c.overlaps y x = some (i2, j2) := by
                  rw [← hay, ← hbx]
                  exact hovab
                have hovxy2 : c.overlaps x y = some (j2, i2) :=
                  overlaps_symm hwf hy hx hovyx
                by_cases hkeep : v ∈ domOf (revise c doms x y).1 x
                · refine ⟨v, ?_, hveq⟩
                  rw [hbx]
                  exact hkeep
                · exfalso
                  apply hkeep
                  rw [domOf_revise_x hovxy2]
                  have hvx : v ∈ domOf doms x := by
                    rw [← hbx]
                    exact hv
                  have hwy : w ∈ domOf doms y := by
                    rw [← hay]
                    exact hwold
                  exact List.mem_filter.mpr
                    ⟨hvx, List.any_eq_true.mpr ⟨w, hwy, decide_eq_true hveq.symm⟩⟩
              · left
                rw [List.mem_append, List.mem_reverse]
                left
                rw [hbx]
                refine List.mem_map.mpr ⟨a, ?_, rfl⟩
                have hxa : x ∈ c.neighbors a := by
                  rw [← hbx]
                  exact hb
                exact List.mem_filter.mpr ⟨neighbors_symm hwf ha hxa, by simp [hay]⟩
            · right
              intro w hw i2 j2 hov2
              have hwold : w ∈ domOf doms a := domOf_revise_subset w hw
              rcases hsupp w hwold i2 j2 hov2 with ⟨v, hv, hveq⟩
              refine ⟨v, ?_, hveq⟩
              rw [domOf_revise_ne hbx]
              exact hv
      · rw [if_neg hrem] at h
        apply ih doms rest d' (fun p hp => hq p (List.mem_cons_of_mem _ hp)) ?_ h
        intro a ha b hb
        rcases hinv a ha b hb with hmem | hsupp
        · rcases List.mem_cons.mp hmem with heqp | hmem'
          · injection heqp with h1 h2
            subst h1
            subst h2
            right
            have hremf : (revise c doms a b).2 = false := by
              cases hr : (revise c doms a b).2
              · rfl
              · exact absurd hr hrem
            exact revise_false_supported hremf
          · left
            exact hmem'
        · right
          exact hsupp

/-- C5: whenever `ac3` (started from the full arc set) returns success, every
word remaining in any variable's domain has, for every neighbor, a supporting
word in the neighbor's domain agreeing at the overlap indices — equivalently,
no further call to `revise` on any arc would remove anything.  `ModelWF` is
the Puzzle Model contract (symmetric overlaps, neighbors = overlapping
variables). -/
theorem claim_C5_ac3_soundness (c : Crossword) (doms d' : Domains)
    (hwf : ModelWF c) (h : ac3 c doms = (d', true)) :
    ∀ x ∈ c.vars, ∀ y ∈ c.neighbors x,
      (∀ w ∈ domOf d' x, ∀ i j, c.overlaps x y = some (i, j) →
        ∃ v ∈ domOf d' y, w.get? i = v.get? j) ∧
      revise c d' x y = (d', false) := by
  have hsup : ∀ a ∈ c.vars, ∀ b ∈ c.neighbors a, Supported c d' a b := by
    apply ac3go_inv hwf _ doms (initialArcs c) d' (queuegood_initial hwf) ?_ h
    intro a ha b hb
    left
    rw [initialArcs, List.mem_reverse]
    exact List.mem_flatMap.mpr ⟨a, ha, List.mem_map.mpr ⟨b, hb, rfl⟩⟩
  intro x hx y hy
  exact ⟨hsup x hx y hy, supported_revise_fix (hsup x hx y hy)⟩

/-- Witness for C5 at the concrete crossing puzzle: propagation succeeds
without removing anything, and every arc of the result is supported and a
fixpoint of `revise`. -/
theorem claim_C5_witness :
    (∀ w ∈ domOf (initialDomains cTwo) vA, ∀ i j, cTwo.overlaps vA vB = some (i, j) →
      ∃ v ∈ domOf (initialDomains cTwo) vB, w.get? i = v.get? j) ∧
    revise cTwo (initialDomains cTwo) vA vB = (initialDomains cTwo, false) :=
  claim_C5_ac3_soundness cTwo (initialDomains cTwo) (initialDomains cTwo)
    (by decide) (by decide) vA (by decide) vB (by decide)

/-! ### Restriction of a consistent assignment (towards claim C2) -/

theorem alookup_eq_none_of_not_mem_keys {α : Type} {l : List (Variable × α)}
    {v : Variable} (h : v ∉ l.map Prod.fst) : alookup l v = none := by
  cases hl : alookup l v with
  | none => rfl
  | some x => exact absurd (mem_keys_of_alookup_isSome (by rw [hl]; rfl)) h

theorem eq_keys_of_values_nodup {sol : Assignment}
    (hvnd : (sol.map Prod.snd).Nodup) {k1 k2 : Variable} {w : Word}
    (h1 : (k1, w) ∈ sol) (h2 : (k2, w) ∈ sol) : k1 = k2 := by
  induction sol with
  | nil => simp at h1
  | cons p rest ih =>
    rw [List.map_cons, List.nodup_cons] at hvnd
    rcases List.mem_cons.mp h1 with e1 | m1 <;> rcases List.mem_cons.mp h2 with e2 | m2
    · rw [← e2] at e1
      exact congrArg Prod.fst e1
    · exfalso
      apply hvnd.1
      rw [← e1]
      exact List.mem_map.mpr ⟨(k2, w), m2, rfl⟩
    · exfalso
      apply hvnd.1
      rw [← e2]
      exact List.mem_map.mpr ⟨(k1, w), m1, rfl⟩
    · exact ih hvnd.2 m1 m2

theorem values_nodup_restrict {sol asg : Assignment}
    (hand : (asg.map Prod.fst).Nodup)
    (hsub : ∀ v w, alookup asg v = some w → alookup sol v = some w)
    (hvnd : (sol.map Prod.snd).Nodup) : (asg.map Prod.snd).Nodup := by
  induction asg with
  | nil => simp
  | cons p rest ih =>
    rw [List.map_cons, List.nodup_cons] at hand ⊢
    have hsubr : ∀ v w, alookup rest v = some w → alookup sol v = some w := by
      intro v w hw
      apply hsub
      have hvne : p.1 ≠ v := by
        intro he
        rw [← he] at hw
        rw [alookup_eq_none_of_not_mem_keys hand.1] at hw
        cases hw
      rw [alookup_cons, if_neg hvne]
      exact hw
    constructor
    · intro hmem
      rcases List.mem_map.mp hmem with ⟨q, hq, hqv⟩
      have hq1 : q.1 ≠ p.1 := by
        intro he
        exact hand.1 (he ▸ List.mem_map.mpr ⟨q, hq, rfl⟩)
      have hlp : alookup (p :: rest) p.1 = some p.2 := by
        rw [alookup_cons]
        simp
      have hlq : alookup rest q.1 = some q.2 := alookup_eq_some_of_mem hand.2 (by
        have : q = (q.1, q.2) := rfl
        rw [← this]
        exact hq)
      have hmp : (p.1, p.2) ∈ sol := mem_of_alookup_eq_some (hsub _ _ hlp)
      have hmq : (q.1, q.2) ∈ sol := mem_of_alookup_eq_some (hsubr _ _ hlq)
      rw [hqv] at hmq
      exact hq1 (eq_keys_of_values_nodup hvnd hmq hmp)
    · exact ih hand.2 hsubr

theorem consistent_restrict (c : Crossword) {sol asg : Assignment}
    (hand : (asg.map Prod.fst).Nodup)
    (hsub : ∀ v w, alookup asg v = some w → alookup sol v = some w)
    (hcons : consistent c sol = true) : consistent c asg = true := by
  rw [consistent_iff] at hcons ⊢
  rcases hcons with ⟨hprops, hvnd⟩
  constructor
  · intro p hp
    have hl : alookup asg p.1 = some p.2 := alookup_eq_some_of_mem hand (by
      have : p = (p.1, p.2) := rfl
      rw [← this]
      exact hp)
    have hps : (p.1, p.2) ∈ sol := mem_of_alookup_eq_some (hsub _ _ hl)
    rcases hprops (p.1, p.2) hps with ⟨hlen, hpair⟩
    refine ⟨hlen, ?_⟩
    intro n hn wn hwn
    exact hpair n hn wn (hsub n wn hwn)
  · exact values_nodup_restrict hand hsub hvnd

theorem keys_nodup_aset {asg : Assignment} (v : Variable) (w : Word)
    (h : (asg.map Prod.fst).Nodup) : ((aset asg v w).map Prod.fst).Nodup := by
  induction asg with
  | nil => simp [aset]
  | cons p rest ih =>
    rw [List.map_cons, List.nodup_cons] at h
    by_cases hp : p.1 = v
    · show ((if p.1 = v then (v, w) :: rest else p :: aset rest v w).map Prod.fst).Nodup
      rw [if_pos hp]
      rw [List.map_cons, List.nodup_cons]
      rw [← hp]
      exact ⟨h.1, h.2⟩
    · show ((if p.1 = v then (v, w) :: rest else p :: aset rest v w).map Prod.fst).Nodup
      rw [if_neg hp]
      rw [List.map_cons, List.nodup_cons]
      constructor
      · intro hmem
        rcases List.mem_map.mp hmem with ⟨q, hq, hqv⟩
        by_cases hqv' : q.1 = v
        · apply hp
          rw [← hqv, hqv']
        · have hq' : q ∈ rest := by
            by_contra hq''
            have := @alookup_aset_ne rest q.1 v w hqv'
            have hmem2 : alookup (aset rest v w) q.1 = some q.2 := by
              apply alookup_eq_some_of_mem (ih h.2)
              exact hq
            rw [this] at hmem2
            exact hq'' (mem_of_alookup_eq_some hmem2)
          exact h.1 (hqv ▸ List.mem_map.mpr ⟨q, hq', rfl⟩)
      · exact ih h.2

/-- The number of unassigned variables among the domain keys. -/
def countUnassigned (doms : Domains) (asg : Assignment) : Nat :=
  ((doms.map Prod.fst).filter (fun v => ! isAssigned asg v)).length

theorem filter_length_mono {α : Type} (l : List α) (p q : α → Bool)
    (h : ∀ a ∈ l, p a = true → q a = true) :
    (l.filter p).length ≤ (l.filter q).length := by
  rw [← List.countP_eq_length_filter, ← List.countP_eq_length_filter]
  exact List.countP_mono_left h

theorem isAssigned_aset_self (asg : Assignment) (v : Variable) (w : Word) :
    isAssigned (aset asg v w) v = true := by
  unfold isAssigned
  rw [alookup_aset_self]
  rfl

theorem isAssigned_aset_ne (asg : Assignment) {u v : Variable} (w : Word)
    (h : u ≠ v) : isAssigned (aset asg v w) u = isAssigned asg u := by
  unfold isAssigned
  rw [alookup_aset_ne _ _ h]

theorem countUnassigned_aset_lt {doms : Domains} {asg : Assignment} {var : Variable}
    (hvk : var ∈ doms.map Prod.fst) (hun : isAssigned asg var = false) (val : Word) :
    countUnassigned doms (aset asg var val) < countUnassigned doms asg := by
  unfold countUnassigned
  have hpoint : ∀ u, (! isAssigned (aset asg var val) u) = true →
      (! isAssigned asg u) = true := by
    intro u hu
    by_cases huv : u = var
    · rw [huv, isAssigned_aset_self] at hu
      cases hu
    · rw [isAssigned_aset_ne _ _ huv] at hu
      exact hu
  revert hvk
  induction (doms.map Prod.fst) with
  | nil =>
    intro hvk
    simp at hvk
  | cons a t ih =>
    intro hvk
    rw [List.filter_cons, List.filter_cons]
    by_cases hav : a = var
    · have h1 : (! isAssigned asg a) = true := by
        rw [hav, hun]
        rfl
      have h2 : (! isAssigned (aset asg var val) a) = false := by
        rw [hav, isAssigned_aset_self]
        rfl
      rw [h1, h2, if_neg Bool.false_ne_true, if_pos rfl]
      have := filter_length_mono t _ _ (fun u _ hu => hpoint u hu)
      simp only [List.length_cons]
      omega
    · rcases List.mem_cons.mp hvk with he | ht
      · exact absurd he.symm hav
      · have heq : (! isAssigned (aset asg var val) a) = (! isAssigned asg a) := by
          rw [isAssigned_aset_ne _ _ hav]
        rw [heq]
        have iht := ih ht
        cases hb : (! isAssigned asg a)
        · rw [if_neg Bool.false_ne_true, if_neg Bool.false_ne_true]
          exact iht
        · rw [if_pos rfl, if_pos rfl]
          simp only [List.length_cons]
          omega

theorem sub_aset_sol {sol asg : Assignment} {var : Variable} {wstar : Word}
    (hsub : ∀ v w, alookup asg v = some w → alookup sol v = some w)
    (hsolvar : alookup sol var = some wstar) :
    ∀ v w, alookup (aset asg var wstar) v = some w → alookup sol v = some w := by
  intro v w hvw
  by_cases hvv : v = var
  · rw [hvv] at hvw ⊢
    rw [alookup_aset_self] at hvw
    injection hvw with he
    rw [← he]
    exact hsolvar
  · rw [alookup_aset_ne _ _ hvv] at hvw
    exact hsub v w hvw

/-! ### Solution preservation through propagation (towards claim C2) -/

/-- `revise` never removes the word a complete consistent assignment places
on a variable: that word is supported by the assignment's word for the
neighbor on the other end of the arc. -/
theorem solinv_revise {c : Crossword} {sol : Assignment}
    (hcomp : assignment_complete c sol = true) (hcons : consistent c sol = true)
    {doms : Domains} {x y : Variable}
    (hyv : y ∈ c.vars) (hyx : y ∈ c.neighbors x)
    (hinv : ∀ v ∈ c.vars, ∀ w, alookup sol v = some w → w ∈ domOf doms v) :
    ∀ v ∈ c.vars, ∀ w, alookup sol v = some w → w ∈ domOf (revise c doms x y).1 v := by
  intro v hv w hw
  by_cases hvx : v = x
  · rw [hvx] at hv hw ⊢
    cases hov : c.overlaps x y with
    | none =>
      rw [revise_of_none hov]
      exact hinv x hv w hw
    | some q =>
      obtain ⟨i, j⟩ := q
      rw [domOf_revise_x hov]
      refine List.mem_filter.mpr ⟨hinv x hv w hw, ?_⟩
      have hyw : ∃ wy, alookup sol y = some wy :=
        Option.isSome_iff_exists.mp (List.all_eq_true.mp hcomp y hyv)
      rcases hyw with ⟨wy, hwy⟩
      have hwyd : wy ∈ domOf doms y := hinv y hyv wy hwy
      have hxw : (x, w) ∈ sol := mem_of_alookup_eq_some hw
      rcases (consistent_iff c sol).mp hcons with ⟨hprops, _⟩
      rcases (hprops (x, w) hxw).2 y hyx wy hwy with ⟨i', j', hov', heq⟩
      rw [hov] at hov'
      simp only [Option.some.injEq, Prod.mk.injEq] at hov'
      rcases hov' with ⟨hi, hj⟩
      refine List.any_eq_true.mpr ⟨wy, hwyd, decide_eq_true ?_⟩
      rw [hi, hj]
      exact heq
  · rw [domOf_revise_ne hvx]
    exact hinv v hv w hw

/-- The whole worklist loop preserves the solution's words in the domains. -/
theorem ac3go_solinv {c : Crossword} (hwf : ModelWF c) {sol : Assignment}
    (hcomp : assignment_complete c sol = true) (hcons : consistent c sol = true) :
    ∀ (fuel : Nat) (doms : Domains) (q : List (Variable × Variable)),
      QueueGood c q →
      (∀ v ∈ c.vars, ∀ w, alookup sol v = some w → w ∈ domOf doms v) →
      ∀ v ∈ c.vars, ∀ w, alookup sol v = some w →
        w ∈ domOf (ac3go c fuel doms q).1 v := by
  intro fuel
  induction fuel with
  | zero =>
    intro doms q _ hinv v hv w hw
    cases q with
    | nil => exact hinv v hv w hw
    | cons p t => exact hinv v hv w hw
  | succ fuel ih =>
    intro doms q hq hinv
    cases q with
    | nil =>
      intro v hv w hw
      exact hinv v hv w hw
    | cons p rest =>
      obtain ⟨x, y⟩ := p
      have hyv : y ∈ c.vars := (hq _ (List.mem_cons_self _ _)).2.1
      have hyx : y ∈ c.neighbors x := (hq _ (List.mem_cons_self _ _)).2.2
      intro v hv w hw
      simp only [ac3go]
      by_cases hrem : (revise c doms x y).2 = true
      · rw [if_pos hrem]
        by_cases hemp : (domOf (revise c doms x y).1 x).length = 0
        · rw [if_pos hemp]
          exact solinv_revise hcomp hcons hyv hyx hinv v hv w hw
        · rw [if_neg hemp]
          exact ih _ _ (queuegood_step hwf hq)
            (solinv_revise hcomp hcons hyv hyx hinv) v hv w hw
      · rw [if_neg hrem]
        exact ih doms rest (fun p2 hp2 => hq p2 (List.mem_cons_of_mem _ hp2)) hinv v hv w hw

/-! ### Search completeness (claim C2) -/

theorem alookup_map_const {ws : List Word} :
    ∀ (L : List Variable) (v : Variable), v ∈ L →
      alookup (L.map (fun u => (u, ws))) v = some ws := by
  intro L
  induction L with
  | nil =>
    intro v hv
    simp at hv
  | cons a t ih =>
    intro v hv
    rw [List.map_cons, alookup_cons]
    by_cases hav : a = v
    · simp [hav]
    · rw [if_neg hav]
      rcases List.mem_cons.mp hv with he | ht
      · exact absurd he.symm hav
      · exact ih v ht

/-- The candidate loop succeeds as soon as the solution's word for the
selected variable is among the candidates and the recursive search is
complete. -/
theorem btVals_complete (c : Crossword) (doms : Domains) (sol : Assignment)
    (hcons : consistent c sol = true) (fuel : Nat) (var : Variable) (wstar : Word)
    (hvark : var ∈ doms.map Prod.fst)
    (hsolvar : alookup sol var = some wstar)
    (ih : ∀ asg', (asg'.map Prod.fst).Nodup →
        (∀ v w, alookup asg' v = some w → alookup sol v = some w) →
        countUnassigned doms asg' < fuel →
        ∃ m, (btRun c doms fuel asg').1 = some m) :
    ∀ (vals : List Word) (asg : Assignment), wstar ∈ vals →
      (asg.map Prod.fst).Nodup →
      (∀ v w, alookup asg v = some w → alookup sol v = some w) →
      isAssigned asg var = false →
      countUnassigned doms asg < fuel + 1 →
      ∃ m, (btVals c (btRun c doms fuel) var asg vals).1 = some m := by
  intro vals
  induction vals with
  | nil =>
    intro asg hwmem
    simp at hwmem
  | cons val rest ihv =>
    intro asg hwmem hand hsub hunv hcnt
    have hvnone : alookup asg var = none := isAssigned_false_iff.mp hunv
    simp only [btVals]
    by_cases hcons1 : consistent c (aset asg var val) = true
    · rw [if_pos hcons1]
      rcases btRun_state c doms fuel (aset asg var val) with ⟨hr1, hr2⟩ | ⟨m, hr1, hr2, hr3⟩
      · rw [hr1]
        simp only [truthy]
        rw [if_neg Bool.false_ne_true]
        rw [hr2, eraseKey_aset val hvnone]
        by_cases hvw : val = wstar
        · exfalso
          have hand1 := keys_nodup_aset var val hand
          have hsub1 : ∀ v w, alookup (aset asg var val) v = some w →
              alookup sol v = some w := by
            rw [hvw]
            exact sub_aset_sol hsub hsolvar
          have hcnt1 : countUnassigned doms (aset asg var val) < fuel := by
            have := countUnassigned_aset_lt hvark hunv val
            omega
          rcases ih (aset asg var val) hand1 hsub1 hcnt1 with ⟨m, hm⟩
          rw [hm] at hr1
          cases hr1
        · have hwrest : wstar ∈ rest := by
            rcases List.mem_cons.mp hwmem with he | hr
            · exact absurd he.symm hvw
            · exact hr
          exact ihv asg hwrest hand hsub hunv hcnt
      · have hmv : alookup m var = some val := hr3 var val (alookup_aset_self asg var val)
        have hne : m.isEmpty = false := by
          cases m with
          | nil => simp [alookup] at hmv
          | cons q t => rfl
        have ht : truthy (btRun c doms fuel (aset asg var val)).1 = true := by
          rw [hr1]
          simp [truthy, hne]
        rw [if_pos ht]
        exact ⟨m, hr1⟩
    · rw [if_neg hcons1]
      rw [eraseKey_aset val hvnone]
      by_cases hvw : val = wstar
      · exfalso
        apply hcons1
        rw [hvw]
        exact consistent_restrict c (keys_nodup_aset var wstar hand)
          (sub_aset_sol hsub hsolvar) hcons
      · have hwrest : wstar ∈ rest := by
          rcases List.mem_cons.mp hwmem with he | hr
          · exact absurd he.symm hvw
          · exact hr
        exact ihv asg hwrest hand hsub hunv hcnt

/-- Backtracking completeness: with enough fuel, a sub-solution assignment
extends to a found assignment whenever the domains still carry the
solution's words. -/
theorem btRun_complete {c : Crossword} (doms : Domains) (sol : Assignment)
    (hkeys : doms.map Prod.fst = c.vars)
    (hcomp : assignment_complete c sol = true)
    (hcons : consistent c sol = true)
    (hsolinv : ∀ v ∈ c.vars, ∀ w, alookup sol v = some w → w ∈ domOf doms v) :
    ∀ (fuel : Nat) (asg : Assignment),
      (asg.map Prod.fst).Nodup →
      (∀ v w, alookup asg v = some w → alookup sol v = some w) →
      countUnassigned doms asg < fuel →
      ∃ m, (btRun c doms fuel asg).1 = some m := by
  intro fuel
  induction fuel with
  | zero =>
    intro asg _ _ hcnt
    exact absurd hcnt (Nat.not_lt_zero _)
  | succ fuel ih =>
    intro asg hand hsub hcnt
    simp only [btRun]
    by_cases hc : assignment_complete c asg = true
    · rw [if_pos hc]
      exact ⟨asg, rfl⟩
    · rw [if_neg hc]
      have hex : ∃ v ∈ doms.map Prod.fst, isAssigned asg v = false := by
        by_contra hno
        push_neg at hno
        apply hc
        unfold assignment_complete
        rw [List.all_eq_true]
        intro v hv
        have hvk : v ∈ doms.map Prod.fst := by
          rw [hkeys]
          exact hv
        have hne := hno v hvk
        cases hia : isAssigned asg v
        · exact absurd hia hne
        · rfl
      rcases hex with ⟨v0, hv0k, hv0u⟩
      rcases select_exists_min c doms asg hv0k hv0u with ⟨var, hsel, _⟩
      rw [hsel]
      have hvsel := select_some_unassigned hsel
      have hvv : var ∈ c.vars := by
        rw [← hkeys]
        exact hvsel.1
      rcases Option.isSome_iff_exists.mp (List.all_eq_true.mp hcomp var hvv) with
        ⟨wstar, hwstar⟩
      have hwdom : wstar ∈ domOf doms var := hsolinv var hvv wstar hwstar
      have hwvals : wstar ∈ order_domain_values c doms var asg := by
        unfold order_domain_values
        rw [List.mem_insertionSort]
        exact hwdom
      show ∃ m,
        (btVals c (btRun c doms fuel) var asg (order_domain_values c doms var asg)).1 = some m
      exact btVals_complete c doms sol hcons fuel var wstar hvsel.1 hwstar ih
        (order_domain_values c doms var asg) asg hwvals hand hsub hvsel.2 hcnt

/-- C2: if a complete assignment of vocabulary words satisfying all
constraints exists, `solve()` returns some complete consistent assignment
and never "no solution".  `ModelWF` is the Puzzle Model contract (symmetric
overlaps, neighbors = overlapping variables); the existing solution is given
by `sol` with the code's own `assignment_complete` and `consistent`
predicates and with every assigned word drawn from the vocabulary. -/
theorem claim_C2_search_completeness (c : Crossword) (sol : Assignment)
    (hwf : ModelWF c)
    (hcomp : assignment_complete c sol = true)
    (hcons : consistent c sol = true)
    (hwords : ∀ p ∈ sol, p.2 ∈ c.words) :
    ∃ a, solve c = some a ∧ assignment_complete c a = true ∧ consistent c a = true := by
  have hk1 : (enforce_node_consistency (initialDomains c)).map Prod.fst = c.vars := by
    rw [keys_enforce, keys_init]
  have hinv0 : ∀ v ∈ c.vars, ∀ w, alookup sol v = some w →
      w ∈ domOf (initialDomains c) v := by
    intro v hv w hw
    have hdom : domOf (initialDomains c) v = c.words := by
      unfold domOf initialDomains
      rw [alookup_map_const c.vars v hv]
      rfl
    rw [hdom]
    exact hwords (v, w) (mem_of_alookup_eq_some hw)
  have hinv1 : ∀ v ∈ c.vars, ∀ w, alookup sol v = some w →
      w ∈ domOf (enforce_node_consistency (initialDomains c)) v := by
    intro v hv w hw
    rw [domOf_enforce]
    refine List.mem_filter.mpr ⟨hinv0 v hv w hw, ?_⟩
    rcases (consistent_iff c sol).mp hcons with ⟨hprops, _⟩
    exact decide_eq_true (hprops (v, w) (mem_of_alookup_eq_some hw)).1
  have hinv2 : ∀ v ∈ c.vars, ∀ w, alookup sol v = some w →
      w ∈ domOf (ac3 c (enforce_node_consistency (initialDomains c))).1 v :=
    ac3go_solinv hwf hcomp hcons _ _ _ (queuegood_initial hwf) hinv1
  have hk2 : ((ac3 c (enforce_node_consistency (initialDomains c))).1).map Prod.fst
      = c.vars := by
    show ((ac3go c _ (enforce_node_consistency (initialDomains c))
        (initialArcs c)).1).map Prod.fst = c.vars
    rw [ac3go_keys, hk1]
  have hcnt : countUnassigned (ac3 c (enforce_node_consistency (initialDomains c))).1 []
      < (ac3 c (enforce_node_consistency (initialDomains c))).1.length + 1 := by
    unfold countUnassigned
    have h1 := List.length_filter_le (fun v => ! isAssigned [] v)
      (((ac3 c (enforce_node_consistency (initialDomains c))).1).map Prod.fst)
    rw [List.length_map] at h1
    omega
  rcases btRun_complete (ac3 c (enforce_node_consistency (initialDomains c))).1 sol
      hk2 hcomp hcons hinv2
      ((ac3 c (enforce_node_consistency (initialDomains c))).1.length + 1) []
      (by simp) (fun v w hw => by simp [alookup] at hw) hcnt with ⟨m, hm⟩
  have hsolve : solve c = some m := hm
  rcases btRun_sound c (ac3 c (enforce_node_consistency (initialDomains c))).1
      ((ac3 c (enforce_node_consistency (initialDomains c))).1.length + 1) []
      (consistent_nil c) m hm with ⟨hcm, hconsm⟩
  exact ⟨m, hsolve, hcm, hconsm⟩

/-- Witness for C2: the crossing puzzle has a complete consistent assignment
of vocabulary words, and `solve` indeed finds one. -/
theorem claim_C2_witness :
    ∃ a, solve cTwo = some a ∧ assignment_complete cTwo a = true ∧
      consistent cTwo a = true :=
  claim_C2_search_completeness cTwo [(vA, ['a', 'b']), (vB, ['a', 'c'])]
    (by decide) (by decide) (by decide) (by decide)
